import Mathlib

/-!
Verification of the Sudoku-AI local-search solver.

The development shallowly embeds the two core modules of the repository:

* `sudoku/board.py` — the constrained grid (`Board`): loading, the frozen
  initial snapshot, the per-row blank index, safe mutation (`set`,
  `fill_board`, `fill_line`), constraint-area enumeration and `check`;
* `sudoku/solve.py` — the restart/climb driver (`_Solver._solve`,
  `_Solver._climb`), the trivial-puzzle shortcut, the β-hill-climbing
  operators of `PaperBetaHC` (`_neighbouring_operator`, `_beta_operator`,
  `_objective`) and the probability gate `_with_probability`.

Machine integers of the source are modelled as `Int` (numpy default ints never
overflow on these ranges), Python floats from `random.random()` as `ℚ` draws in
`[0, 1)`, and the single pseudo-random source as explicit oracle streams
(`Nat → ℚ` for `random.random()` draws, `Nat → Int` for `random.randint`
results) consumed at explicit indices.  Fallible operations return the value
the Python function returns (`Bool`, `Option Bool` where the source can fall
through without a `return`, `Except Unit` where the source can raise).
-/

namespace Sudoku

/-- Position on the board: `Pos = namedtuple('Pos', 'x y')` — column `x`,
row `y`. -/
structure Pos where
  x : Nat
  y : Nat
deriving DecidableEq

/-- The `Board` state: `_size`, the working grid `_board`, the frozen initial
snapshot `_board_init`, and `_unfilled`, the insertion-ordered dictionary from
row index to the list of initially blank column indices (only rows with at
least 2 blanks).  The Python `_board_init = None` pre-load state is modelled by
the empty list. -/
structure Board where
  size : Nat
  board : List (List Int)
  boardInit : List (List Int)
  unfilled : List (Nat × List Nat)
deriving DecidableEq

/-- Read cell `(x, y)` of a matrix (`self._board[pos.y, pos.x]`); out-of-range
reads default to `0` and are always guarded by bounds checks in the source. -/
def getCell (m : List (List Int)) (p : Pos) : Int :=
  (m.getD p.y []).getD p.x 0

/-- Write cell `(x, y)` of a matrix (`self._board[pos.y, pos.x] = val`). -/
def setCell (m : List (List Int)) (p : Pos) (v : Int) : List (List Int) :=
  m.set p.y ((m.getD p.y []).set p.x v)

namespace Board

/-- `Board.is_valid`: the position lies within the board. -/
def isValid (b : Board) (p : Pos) : Bool :=
  decide (p.x < b.size ∧ p.y < b.size)

/-- `Board.is_initial`: `False` when out of bounds, otherwise
`self._board_init[pos.y, pos.x] != 0`. -/
def isInitial (b : Board) (p : Pos) : Bool :=
  b.isValid p && decide (getCell b.boardInit p ≠ 0)

/-- `Board.set`: fails when the position is invalid or initial, otherwise
mutates the single cell and returns `True`. -/
def set (b : Board) (p : Pos) (v : Int) : Bool × Board :=
  if ¬ b.isValid p ∨ b.isInitial p then (false, b)
  else (true, { b with board := setCell b.board p v })

/-- `values.shape == (size, size)` for a list-of-rows matrix. -/
def shapeOk (size : Nat) (m : List (List Int)) : Bool :=
  decide (m.length = size) && m.all (fun row => decide (row.length = size))

/-- The scan of `Board.fill_board`/`fill_line` on one row:
some initial (non-zero) tile would receive a different value. -/
def initConflict (initRow newRow : List Int) : Bool :=
  (initRow.zip newRow).any (fun tp => decide (tp.1 ≠ 0) && decide (tp.1 ≠ tp.2))

/-- `Board.fill_board`: checks the shape, then scans every tile against the
initial snapshot before any write; on success replaces the whole grid and
returns `True`. -/
def fillBoard (b : Board) (values : List (List Int)) : Bool × Board :=
  if ¬ shapeOk b.size values then (false, b)
  else if (b.boardInit.zip values).any (fun rp => initConflict rp.1 rp.2) then (false, b)
  else (true, { b with board := values })

/-- `Board.fill_line`: bounds check, then the initial-tile scan, then the row
write.  The source returns `False` on both failure paths but falls off the end
of the function after a successful write, so the success value is Python
`None`, modelled as `none` (failure returns `some false`). -/
def fillLine (b : Board) (lineNum : Nat) (values : List Int) : Option Bool × Board :=
  if values.length ≠ b.size ∨ ¬ lineNum < b.size then (some false, b)
  else if initConflict (b.boardInit.getD lineNum []) values then (some false, b)
  else (none, { b with board := b.board.set lineNum values })

/-- `Board.reset`: restores the working grid to the initial snapshot. -/
def reset (b : Board) : Board :=
  { b with board := b.boardInit }

end Board

/-- `Board._count_unfilled` restricted to the index bookkeeping: walks the
area left to right carrying the running index, returning the number of blank
(zero) tiles and the list of their indices in increasing order. -/
def countUnfilledAux (i : Nat) : List Int → Nat × List Nat
  | [] => (0, [])
  | t :: rest =>
    let r := countUnfilledAux (i + 1) rest
    if t = 0 then (r.1 + 1, i :: r.2) else r

/-- `Board._count_unfilled`: number of blank tiles in the area and the list of
their indices. -/
def countUnfilled (area : List Int) : Nat × List Nat :=
  countUnfilledAux 0 area

/-- The `_unfilled` dictionary built by `Board.set_init_state` from a fresh
(empty) dictionary: every row of the initial snapshot with at least 2 blanks,
in row order, mapped to its blank indices. -/
def unfilledOfAux (i : Nat) : List (List Int) → List (Nat × List Nat)
  | [] => []
  | line :: rest =>
    let r := countUnfilled line
    if 2 ≤ r.1 then (i, r.2) :: unfilledOfAux (i + 1) rest
    else unfilledOfAux (i + 1) rest

/-- `_unfilled` computed from the initial snapshot. -/
def unfilledOf (init : List (List Int)) : List (Nat × List Nat) :=
  unfilledOfAux 0 init

/-- `Board.unfilled_positions`: all unfilled tiles, grouped by the `_unfilled`
rows in dictionary order, `Pos(x=index, y=row)`. -/
def Board.unfilledPositions (b : Board) : List Pos :=
  b.unfilled.flatMap (fun ri => ri.2.map (fun idx => Pos.mk idx ri.1))

/-- The `Board` produced by a successful `set_init_state` on a fresh board of
the given size: the working grid and the frozen snapshot both hold the parsed
matrix, and `_unfilled` (empty on a fresh board) holds the rows with at least
two blanks. -/
def loadedBoard (size : Nat) (init : List (List Int)) : Board :=
  ⟨size, init, init, unfilledOf init⟩

/-- The loop of `Board._check_unique`: `free` starts as the set `{1..size}`;
each tile must be non-zero and still free, and is then removed from `free`. -/
def checkUniqueAux : List Int → Finset Int → Bool
  | [], _ => true
  | x :: xs, free => if x = 0 ∨ x ∉ free then false else checkUniqueAux xs (free.erase x)

/-- `Board._check_unique`: the area satisfies the sudoku rules
(`free = set(range(1, len(area) + 1))`). -/
def checkUnique (area : List Int) : Bool :=
  checkUniqueAux area (Finset.Icc 1 (area.length : Int))

namespace Board

/-- The row areas (`for row in self._board`). -/
def rowsList (b : Board) : List (List Int) :=
  b.board

/-- The column areas (`self._board[:, i]` for `i in range(size)`). -/
def colsList (b : Board) : List (List Int) :=
  (List.range b.size).map (fun i => b.board.map (fun row => row.getD i 0))

/-- `self._size_sq = int(math.sqrt(size))`: the floor square root, computed
here as the count of `k ≤ n` with `k² ≤ n`, minus one (a formulation that
evaluates by kernel reduction). -/
def sizeSq (b : Board) : Nat :=
  ((List.range (b.size + 1)).filter (fun k => decide (k * k ≤ b.size))).length - 1

/-- `Board.squares` with `flatten=True`: for `hr` then `vert` in
`range(size_sq)`, the sub-block `board[vert·s:(vert+1)·s, hr·s:(hr+1)·s]`
flattened row-major. -/
def squaresList (b : Board) : List (List Int) :=
  (List.range b.sizeSq).flatMap (fun hr =>
    (List.range b.sizeSq).map (fun vert =>
      (((b.board.drop (vert * b.sizeSq)).take b.sizeSq).map
        (fun row => (row.drop (hr * b.sizeSq)).take b.sizeSq)).flatten))

/-- All `3·size` constraint areas in the order `check` visits them:
rows, then columns, then squares. -/
def areasList (b : Board) : List (List Int) :=
  b.rowsList ++ b.colsList ++ b.squaresList

/-- `Board.check`: one `mistakes` counter incremented once per failing area
over the rows loop, the columns loop and the squares loop — i.e. the number of
areas failing `_check_unique` — paired with `mistakes / (3 * size)`. -/
def check (b : Board) : Nat × ℚ :=
  let mistakes := (b.areasList.filter (fun a => ! checkUnique a)).length
  (mistakes, (mistakes : ℚ) / (3 * b.size))

end Board

/-- `PaperBetaHC._eval_tiles`: `abs(45 - np.sum(tiles))` — note the literal
`45` in the source. -/
def evalTiles (tiles : List Int) : Int :=
  |45 - tiles.sum|

/-- `PaperBetaHC._objective`: `_eval_tiles` accumulated over the rows loop,
the columns loop and the squares loop. -/
def objective (b : Board) : Int :=
  (b.areasList.map evalTiles).sum

/-- The deviation objective as the specification words it: for every
constraint area accumulate `|target_sum − sum(area)|` with
`target_sum = size·(size+1)/2`.  Stated for comparison with `objective`. -/
def deviationSpec (b : Board) : Int :=
  (b.areasList.map (fun a => |((b.size * (b.size + 1) / 2 : Nat) : Int) - a.sum|)).sum

/-!  Loading (`Board._init_from_file` / `Board.set_init_state`).

A file is modelled after tokenisation: each physical line becomes the list of
per-token results of `parse.convert_safe` (`some n` for a token `int()`
accepts, `none` for one it rejects), which is exactly the value
`_try_convert_seq` hands back to `_init_from_file`. -/

/-- The line loop of `Board._init_from_file`: a line containing a failed token
or the wrong number of tokens returns `False` at once (the rows already
written stay in the working grid); writing row `line_num` of the `size × size`
numpy array raises `IndexError` when `line_num ≥ size` (modelled as
`Except.error ()`); at end of file success is `line_num == size`. -/
def initFromFileAux (size : Nat) : List (List (Option Int)) → List (List Int) → Nat →
    Except Unit (Bool × List (List Int))
  | [], board, lineNum => .ok (decide (lineNum = size), board)
  | data :: rest, board, lineNum =>
    if none ∈ data ∨ data.length ≠ size then .ok (false, board)
    else if lineNum < size then
      initFromFileAux size rest (board.set lineNum (data.map (fun t => t.getD 0))) (lineNum + 1)
    else .error ()

/-- Python dictionary write `d[key] = val` on an insertion-ordered
association list. -/
def dictInsert (d : List (Nat × List Nat)) (key : Nat) (val : List Nat) :
    List (Nat × List Nat) :=
  if d.any (fun kv => kv.1 = key) then
    d.map (fun kv => if kv.1 = key then (key, val) else kv)
  else d ++ [(key, val)]

/-- The `_unfilled` update loop of `set_init_state`: for every row of the new
snapshot with at least 2 blanks, `self._unfilled[i] = indexes`. -/
def updateUnfilled (d : List (Nat × List Nat)) (binit : List (List Int)) :
    List (Nat × List Nat) :=
  (binit.enum.foldl (fun acc il =>
    let r := countUnfilled il.2
    if 2 ≤ r.1 then dictInsert acc il.1 r.2 else acc) d)

/-- `Board.set_init_state` given the tokenised file contents: run
`_init_from_file` (which mutates the working grid in place); on success freeze
the snapshot and update `_unfilled`; on failure return `False` with the
snapshot and `_unfilled` untouched — but the working grid keeps whatever
`_init_from_file` wrote. -/
def setInitState (b : Board) (lines : List (List (Option Int))) :
    Except Unit (Bool × Board) :=
  match initFromFileAux b.size lines b.board 0 with
  | .error e => .error e
  | .ok (success, newBoard) =>
    if success then
      .ok (true, ⟨b.size, newBoard, newBoard, updateUnfilled b.unfilled newBoard⟩)
    else .ok (false, { b with board := newBoard })

/-!  The solver (`sudoku/solve.py`). -/

/-- The comparison performed by `_BetaHC._with_probability` after its assert:
`random.random() <= prob`. -/
def withProb (prob draw : ℚ) : Bool :=
  decide (draw ≤ prob)

/-- `_BetaHC._with_probability` itself: the assert
`0 <= prob <= 1` raises (modelled as `Except.error ()`) the first time the
gate is evaluated with an out-of-range probability; otherwise the draw is
compared with `<=`. -/
def withProbability (prob draw : ℚ) : Except Unit Bool :=
  if 0 ≤ prob ∧ prob ≤ 1 then .ok (withProb prob draw) else .error ()

/-- The `_BetaHC` constructor: stores the board, the budgets and the two
probabilities without any validation (the base `_Solver.__init__` plus the two
assignments `self._n_prob = n`, `self._beta_prob = beta`). -/
structure BetaHCConfig where
  board : Board
  maxRestarts : Nat
  maxIter : Nat
  nProb : ℚ
  betaProb : ℚ
  stopIfFound : Bool
deriving DecidableEq

/-- `_BetaHC.__init__`: total — no precondition on `n` or `beta` is checked at
construction time. -/
def betaHCInit (board : Board) (maxRestarts maxIter : Nat) (n beta : ℚ)
    (stopIfFound : Bool) : BetaHCConfig :=
  ⟨board, maxRestarts, maxIter, n, beta, stopIfFound⟩

/-- `PaperBetaHC._neighbouring_val`: with probability one half (`0.5`,
written `mkRat 1 2`) `val + 1` (no-op at the ceiling `size`), otherwise
`val - 1` (clamped at `1`). -/
def neighbouringVal (size : Nat) (coin : ℚ) (val : Int) : Int :=
  if withProb (mkRat 1 2) coin then (if val ≠ (size : Int) then val + 1 else val)
  else (if val ≠ 1 then val - 1 else 1)

/-- The position loop of `PaperBetaHC._neighbouring_operator` over a copy of
the values: each unfilled position draws a gate (`draws k`); when the gate
fires the cell draws a coin (`draws (k+1)`) and is replaced by its
neighbouring value. -/
def nOpAux (size : Nat) (nProb : ℚ) (draws : Nat → ℚ) :
    List Pos → List (List Int) → Nat → List (List Int) × Nat
  | [], values, k => (values, k)
  | p :: ps, values, k =>
    if withProb nProb (draws k) then
      nOpAux size nProb draws ps
        (setCell values p (neighbouringVal size (draws (k + 1)) (getCell values p))) (k + 2)
    else nOpAux size nProb draws ps values (k + 1)

/-- `PaperBetaHC._neighbouring_operator`: mutate a copy of the values at the
unfilled positions, then push it back with `fill_board` (whose boolean result
the source ignores). -/
def neighbouringOperator (b : Board) (nProb : ℚ) (draws : Nat → ℚ) (k : Nat) :
    Board × Nat :=
  let r := nOpAux b.size nProb draws b.unfilledPositions b.board k
  ((b.fillBoard r.1).2, r.2)

/-- The position loop of `PaperBetaHC._beta_operator`: each unfilled position
draws a gate; when it fires the cell is regenerated with
`_generate_fill_number` = `random.randint(1, size)`, modelled by the integer
oracle `ints` at the draw index. -/
def betaOpAux (bProb : ℚ) (draws : Nat → ℚ) (ints : Nat → Int) :
    List Pos → List (List Int) → Nat → List (List Int) × Nat
  | [], values, k => (values, k)
  | p :: ps, values, k =>
    if withProb bProb (draws k) then
      betaOpAux bProb draws ints ps (setCell values p (ints (k + 1))) (k + 2)
    else betaOpAux bProb draws ints ps values (k + 1)

/-- `PaperBetaHC._beta_operator`: the regeneration pass followed by
`fill_board`. -/
def betaOperator (b : Board) (bProb : ℚ) (draws : Nat → ℚ) (ints : Nat → Int)
    (k : Nat) : Board × Nat :=
  let r := betaOpAux bProb draws ints b.unfilledPositions b.board k
  ((b.fillBoard r.1).2, r.2)

/-- `_BetaHC._step` as `PaperBetaHC` runs it: the n-operator followed by the
β-operator. -/
def stepPB (nProb bProb : ℚ) (draws : Nat → ℚ) (ints : Nat → Int) (b : Board)
    (k : Nat) : Board × Nat :=
  let r := neighbouringOperator b nProb draws k
  betaOperator r.1 bProb draws ints r.2

/-- `_Solver._climb`: starting from `score_min = eval(board)`, for up to
`max_iter` iterations step a copy of the board, accept it when its score is
`≤ score_min`, and return `(0, i + 1)` as soon as an accepted score is zero;
otherwise `(score_min, max_iter)` when the budget is exhausted.  `fuel` is the
number of remaining iterations (`max_iter - i`). -/
def climbAux (step : Board → Nat → Board × Nat) (eval : Board → Int)
    (maxIter : Nat) : Nat → Nat → Board → Int → Nat → (Int × Nat) × Board
  | 0, _, b, scoreMin, _ => ((scoreMin, maxIter), b)
  | fuel + 1, i, b, scoreMin, k =>
    let r := step b k
    let score := eval r.1
    if score ≤ scoreMin then
      if score = 0 then ((0, i + 1), r.1)
      else climbAux step eval maxIter fuel (i + 1) r.1 score r.2
    else climbAux step eval maxIter fuel (i + 1) b scoreMin r.2

/-- One full `_climb` call. -/
def climb (step : Board → Nat → Board × Nat) (eval : Board → Int)
    (maxIter : Nat) (b : Board) (k : Nat) : (Int × Nat) × Board :=
  climbAux step eval maxIter maxIter 0 b (eval b) k

/-- The `PaperBetaHC` climb: step = n-operator then β-operator, evaluation =
the deviation objective. -/
def climbPB (nProb bProb : ℚ) (draws : Nat → ℚ) (ints : Nat → Int)
    (maxIter : Nat) (b : Board) (k : Nat) : (Int × Nat) × Board :=
  climb (stepPB nProb bProb draws ints) objective maxIter b k

/-- `score < score_min` against a possibly-infinite best
(`score_min = INFINITY` before the first restart). -/
def ltOpt (a : Nat) : Option Nat → Bool
  | none => true
  | some x => decide (a < x)

/-- `score == score_min` against a possibly-infinite best. -/
def eqOpt (a : Nat) : Option Nat → Bool
  | none => false
  | some x => decide (a = x)

/-- The restart loop of `_Solver._solve`, with each restart's stochastic
`_fill();  _climb()` outcome supplied as a `(score, iterations, board copy)`
triple.  The accumulator mirrors `score_min`, `itr_min` and `best`
(`none` = `INFINITY` / Python `None`).  When `stop_if_found` is set and a
restart scores `0`, its `Result` is returned at once; otherwise the two
sequential `if` updates of the source are applied. -/
def solveDriverAux (stop : Bool) :
    List (Nat × Nat × Board) → Option Nat × Option Nat × Option Board →
    Option Nat × Option Nat × Option Board
  | [], acc => acc
  | r :: rest, acc =>
    if stop = true ∧ r.1 = 0 then (some r.1, some r.2.1, some r.2.2)
    else
      let acc1 := if ltOpt r.1 acc.1 then (some r.1, some r.2.1, some r.2.2) else acc
      let acc2 :=
        if eqOpt r.1 acc1.1 ∧ ltOpt r.2.1 acc1.2.1 then (some r.1, some r.2.1, some r.2.2)
        else acc1
      solveDriverAux stop rest acc2

/-- The non-trivial branch of `_Solver._solve` over the listed restart
outcomes: final `(score_min, itr_min, best)`. -/
def solveDriver (stop : Bool) (outcomes : List (Nat × Nat × Board)) :
    Option Nat × Option Nat × Option Board :=
  solveDriverAux stop outcomes (none, none, none)

/-- `_Solver.try_solve` composed with `_Solver._solve`: reset the board; when
`_unfilled` is empty return `_solve_trivial()` — `Result(0, 0)` with the board
left as reset, nothing filled — otherwise run the restart loop and hand back
its best board with its result.  (`best` is `None` only when `max_restarts`
is `0`; the reset board stands in for Python's unusable `None` there.) -/
def trySolve (b : Board) (stop : Bool) (outcomes : List (Nat × Nat × Board)) :
    Board × (Option Nat × Option Nat) :=
  let b0 := b.reset
  if b0.unfilled.length = 0 then (b0, (some 0, some 0))
  else
    let r := solveDriver stop outcomes
    (r.2.2.getD b0, (r.1, r.2.1))

/-!  Concrete instances used to witness and to refute claims. -/

/-- A fully solved 4×4 puzzle: every row, column and 2×2 block is a
permutation of `1..4`. -/
def mPerfect4 : List (List Int) :=
  [[1, 2, 3, 4], [3, 4, 1, 2], [2, 1, 4, 3], [4, 3, 2, 1]]

/-- The solved 4×4 puzzle loaded as a board. -/
def bPerfect4 : Board :=
  loadedBoard 4 mPerfect4

/-- The solved 4×4 puzzle with a single blank at `(0, 0)`: no row has two or
more blanks, and its unique valid completion is `mPerfect4`. -/
def mOneBlank4 : List (List Int) :=
  [[0, 2, 3, 4], [3, 4, 1, 2], [2, 1, 4, 3], [4, 3, 2, 1]]

/-- The one-blank puzzle loaded as a board (its `_unfilled` index is empty). -/
def bOneBlank4 : Board :=
  loadedBoard 4 mOneBlank4

/-- The solved 4×4 puzzle with two blanks in row 0. -/
def mTwoBlank4 : List (List Int) :=
  [[1, 0, 0, 4], [3, 4, 1, 2], [2, 1, 4, 3], [4, 3, 2, 1]]

/-- The two-blank puzzle loaded as a board. -/
def bTwoBlank4 : Board :=
  loadedBoard 4 mTwoBlank4

/-- Initial state with both blanks of row 0 modifiable, used to drive the
n-operator. -/
def mOpInit4 : List (List Int) :=
  [[0, 0, 3, 4], [3, 4, 1, 2], [2, 1, 4, 3], [4, 3, 2, 1]]

/-- A working state over `mOpInit4` holding `2` and `1` in the modifiable
cells. -/
def bOpMid4 : Board :=
  ⟨4, [[2, 1, 3, 4], [3, 4, 1, 2], [2, 1, 4, 3], [4, 3, 2, 1]], mOpInit4, unfilledOf mOpInit4⟩

/-- A working state over `mOpInit4` holding the ceiling value `4` in both
modifiable cells. -/
def bOpTop4 : Board :=
  ⟨4, [[4, 4, 3, 4], [3, 4, 1, 2], [2, 1, 4, 3], [4, 3, 2, 1]], mOpInit4, unfilledOf mOpInit4⟩

/-- Tokenised file contents whose first line parses but whose second line has
a failed token: `_init_from_file` writes row 0 and then fails. -/
def badLines4 : List (List (Option Int)) :=
  [[some 9, some 9, some 9, some 9], [none, some 1, some 1, some 1]]

/-- Restart outcomes used to exercise the driver: three restarts, the second
and third tied on the minimal score `1`, the third with fewer iterations. -/
def outcomesEx : List (Nat × Nat × Board) :=
  [(2, 5, bPerfect4), (1, 7, bOneBlank4), (1, 6, bTwoBlank4)]

/-- The board state left behind by the failed load `badLines4` over
`bPerfect4`: row 0 of the working grid is overwritten, the snapshot and the
blank index are untouched. -/
def bCorrupted : Board :=
  ⟨4, [[9, 9, 9, 9], [3, 4, 1, 2], [2, 1, 4, 3], [4, 3, 2, 1]], mPerfect4, unfilledOf mPerfect4⟩

/-- The invariant the specification states for the grid: every cell that is
non-zero in the frozen initial snapshot holds its initial value in the
working grid. -/
def boardInvariant (b : Board) : Prop :=
  ∀ p : Pos, getCell b.boardInit p ≠ 0 → getCell b.board p = getCell b.boardInit p

/-- The area is a permutation of `1..n`: as a multiset it equals
`{1, 2, …, n}`. -/
def isPermOfOneTo (n : Nat) (area : List Int) : Prop :=
  (area : Multiset Int) = (Finset.Icc (1 : Int) (n : Int)).val

instance isPermOfOneToDec (n : Nat) (area : List Int) : Decidable (isPermOfOneTo n area) :=
  inferInstanceAs (Decidable ((area : Multiset Int) = (Finset.Icc (1 : Int) (n : Int)).val))

/-!  Cell-level helper lemmas. -/

theorem getD_set_ne {α : Type} (l : List α) (i j : Nat) (a d : α) (h : i ≠ j) :
    (l.set i a).getD j d = l.getD j d := by
  simp [List.getD_eq_getD_get?, List.get?_eq_getElem?, List.getElem?_set_ne h]

theorem getD_set_self {α : Type} (l : List α) (i : Nat) (a d : α) (h : i < l.length) :
    (l.set i a).getD i d = a := by
  simp [List.getD_eq_getD_get?, List.get?_eq_getElem?, List.getElem?_set_self h]

theorem getCell_setCell_ne (m : List (List Int)) (p q : Pos) (v : Int) (h : p ≠ q) :
    getCell (setCell m q v) p = getCell m p := by
  unfold getCell setCell
  by_cases hy : q.y = p.y
  · have hx : q.x ≠ p.x := by
      intro hx
      exact h (by cases p; cases q; simp_all)
    by_cases hlen : q.y < m.length
    · rw [← hy, getD_set_self _ _ _ _ hlen, getD_set_ne _ _ _ _ _ hx, hy]
    · rw [List.set_eq_of_length_le (Nat.le_of_not_lt hlen)]
  · rw [getD_set_ne _ _ _ _ _ hy]

theorem getCell_setCell_self (m : List (List Int)) (p : Pos) (v : Int)
    (hy : p.y < m.length) (hx : p.x < (m.getD p.y []).length) :
    getCell (setCell m p v) p = v := by
  unfold getCell setCell
  rw [getD_set_self _ _ _ _ hy, getD_set_self _ _ _ _ hx]

theorem shapeOk_setCell (s : Nat) (m : List (List Int)) (p : Pos) (v : Int)
    (h : Board.shapeOk s m = true) : Board.shapeOk s (setCell m p v) = true := by
  by_cases hlen : p.y < m.length
  · simp only [Board.shapeOk, Bool.and_eq_true, decide_eq_true_eq, List.all_eq_true] at h ⊢
    refine ⟨by rw [setCell, List.length_set]; exact h.1, ?_⟩
    intro x hx
    rcases List.mem_or_eq_of_mem_set hx with hx' | rfl
    · exact h.2 x hx'
    · rw [List.length_set, List.getD_eq_getElem _ _ hlen]
      exact h.2 _ (List.getElem_mem hlen)
  · rw [setCell, List.set_eq_of_length_le (Nat.le_of_not_lt hlen)]
    exact h

theorem getCell_of_shape (m : List (List Int)) (s : Nat) (p : Pos)
    (hs : Board.shapeOk s m = true) (hy : p.y < s) :
    p.y < m.length ∧ (m.getD p.y []).length = s := by
  simp only [Board.shapeOk, Bool.and_eq_true, decide_eq_true_eq, List.all_eq_true] at hs
  have hym : p.y < m.length := by rw [hs.1]; exact hy
  refine ⟨hym, ?_⟩
  rw [List.getD_eq_getElem _ _ hym]
  exact hs.2 _ (List.getElem_mem hym)

/-- Cells outside the row range of a matrix read as `0`. -/
theorem getCell_default_of_oob (m : List (List Int)) (s : Nat) (p : Pos)
    (hs : Board.shapeOk s m = true) (h : ¬ (p.x < s ∧ p.y < s)) :
    getCell m p = 0 := by
  simp only [Board.shapeOk, Bool.and_eq_true, decide_eq_true_eq, List.all_eq_true] at hs
  unfold getCell
  rcases Nat.lt_or_ge p.y m.length with hy | hy
  · have hrow : (m.getD p.y []).length = s := by
      rw [List.getD_eq_getElem _ _ hy]
      exact hs.2 _ (List.getElem_mem hy)
    have hx : ¬ p.x < s := fun hx => h ⟨hx, by rw [← hs.1]; exact hy⟩
    rw [List.getD_eq_default]
    rw [hrow]
    exact Nat.le_of_not_lt hx
  · rw [List.getD_eq_default _ _ hy]
    simp

/-!  Lemmas on the mutation operations of `Board`. -/

theorem fillBoard_conflict_aux (b : Board) (vs : List (List Int)) (p : Pos)
    (hsi : Board.shapeOk b.size b.boardInit = true)
    (hsv : Board.shapeOk b.size vs = true)
    (hx : p.x < b.size) (hy : p.y < b.size)
    (h0 : getCell b.boardInit p ≠ 0) (hne : getCell vs p ≠ getCell b.boardInit p) :
    (b.boardInit.zip vs).any (fun rp => Board.initConflict rp.1 rp.2) = true := by
  obtain ⟨hiy, hirow⟩ := getCell_of_shape b.boardInit b.size p hsi hy
  obtain ⟨hvy, hvrow⟩ := getCell_of_shape vs b.size p hsv hy
  have hxi : p.x < (b.boardInit.getD p.y []).length := by rw [hirow]; exact hx
  have hxv : p.x < (vs.getD p.y []).length := by rw [hvrow]; exact hx
  rw [List.getD_eq_getElem _ _ hiy] at hxi
  rw [List.getD_eq_getElem _ _ hvy] at hxv
  rw [List.any_eq_true]
  have hylen : p.y < (b.boardInit.zip vs).length := by
    rw [List.length_zip]
    exact lt_min hiy hvy
  refine ⟨(b.boardInit.zip vs)[p.y], List.getElem_mem hylen, ?_⟩
  rw [List.getElem_zip]
  unfold Board.initConflict
  rw [List.any_eq_true]
  have hxlen : p.x < ((b.boardInit[p.y]).zip (vs[p.y])).length := by
    rw [List.length_zip]
    exact lt_min hxi hxv
  refine ⟨_, List.getElem_mem hxlen, ?_⟩
  rw [List.getElem_zip]
  have e1 : getCell b.boardInit p = b.boardInit[p.y][p.x] := by
    unfold getCell
    rw [List.getD_eq_getElem _ _ hiy]
    exact List.getD_eq_getElem _ _ hxi
  have e2 : getCell vs p = vs[p.y][p.x] := by
    unfold getCell
    rw [List.getD_eq_getElem _ _ hvy]
    exact List.getD_eq_getElem _ _ hxv
  simp only [Bool.and_eq_true, decide_eq_true_eq]
  refine ⟨?_, ?_⟩
  · rw [← e1]
    exact h0
  · rw [← e1, ← e2]
    exact fun hh => hne hh.symm

theorem fillBoard_of_conflict (b : Board) (vs : List (List Int)) (p : Pos)
    (hsi : Board.shapeOk b.size b.boardInit = true)
    (hx : p.x < b.size) (hy : p.y < b.size)
    (h0 : getCell b.boardInit p ≠ 0) (hne : getCell vs p ≠ getCell b.boardInit p) :
    b.fillBoard vs = (false, b) := by
  unfold Board.fillBoard
  by_cases hsv : Board.shapeOk b.size vs = true
  · rw [if_neg (by simp [hsv]), if_pos (fillBoard_conflict_aux b vs p hsi hsv hx hy h0 hne)]
  · rw [if_pos (by simp [hsv])]

theorem set_of_initial (b : Board) (p : Pos) (v : Int) (h : b.isInitial p = true) :
    b.set p v = (false, b) := by
  unfold Board.set
  rw [if_pos (Or.inr h)]

theorem set_preserves_invariant (b : Board) (p : Pos) (v : Int) (h : boardInvariant b) :
    boardInvariant (b.set p v).2 := by
  unfold Board.set
  by_cases hcond : ¬ b.isValid p = true ∨ b.isInitial p = true
  · rw [if_pos hcond]
    exact h
  · rw [if_neg hcond]
    push_neg at hcond
    intro q h0
    have hqp : q ≠ p := by
      rintro rfl
      have : b.isInitial q = true := by
        unfold Board.isInitial
        rw [hcond.1]
        simpa using h0
      exact hcond.2 this
    show getCell (setCell b.board p v) q = getCell b.boardInit q
    rw [getCell_setCell_ne _ _ _ _ hqp]
    exact h q h0

theorem fillBoard_preserves_invariant (b : Board) (vs : List (List Int))
    (hsi : Board.shapeOk b.size b.boardInit = true) (h : boardInvariant b) :
    boardInvariant (b.fillBoard vs).2 := by
  unfold Board.fillBoard
  by_cases hsv : Board.shapeOk b.size vs = true
  · by_cases hc : (b.boardInit.zip vs).any (fun rp => Board.initConflict rp.1 rp.2) = true
    · rw [if_neg (by simp [hsv]), if_pos hc]
      exact h
    · rw [if_neg (by simp [hsv]), if_neg hc]
      intro p h0
      by_cases hin : p.x < b.size ∧ p.y < b.size
      · show getCell vs p = getCell b.boardInit p
        by_contra hne
        exact hc (fillBoard_conflict_aux b vs p hsi hsv hin.1 hin.2 h0 hne)
      · exact absurd (getCell_default_of_oob b.boardInit b.size p hsi hin) h0
  · rw [if_pos (by simp [hsv])]
    exact h

theorem fillLine_conflict_aux (b : Board) (ln : Nat) (vs : List Int) (j : Nat)
    (hsi : Board.shapeOk b.size b.boardInit = true)
    (hj : j < b.size) (hln : ln < b.size) (hlen : vs.length = b.size)
    (h0 : (b.boardInit.getD ln []).getD j 0 ≠ 0)
    (hne : vs.getD j 0 ≠ (b.boardInit.getD ln []).getD j 0) :
    Board.initConflict (b.boardInit.getD ln []) vs = true := by
  obtain ⟨hiy, hirow⟩ := getCell_of_shape b.boardInit b.size ⟨j, ln⟩ hsi hln
  have hxi : j < (b.boardInit.getD ln []).length := by rw [hirow]; exact hj
  have hxv : j < vs.length := by rw [hlen]; exact hj
  unfold Board.initConflict
  rw [List.any_eq_true]
  have hxlen : j < ((b.boardInit.getD ln []).zip vs).length := by
    rw [List.length_zip]
    exact lt_min hxi hxv
  refine ⟨_, List.getElem_mem hxlen, ?_⟩
  rw [List.getElem_zip]
  simp only [Bool.and_eq_true, decide_eq_true_eq]
  rw [← List.getD_eq_getElem (b.boardInit.getD ln []) 0 hxi, ← List.getD_eq_getElem vs 0 hxv]
  exact ⟨h0, fun hne' => hne (hne' ▸ rfl)⟩

theorem fillLine_of_conflict (b : Board) (ln : Nat) (vs : List Int) (j : Nat)
    (hsi : Board.shapeOk b.size b.boardInit = true)
    (hj : j < b.size) (hln : ln < b.size)
    (h0 : (b.boardInit.getD ln []).getD j 0 ≠ 0)
    (hne : vs.getD j 0 ≠ (b.boardInit.getD ln []).getD j 0) :
    b.fillLine ln vs = (some false, b) := by
  unfold Board.fillLine
  by_cases hlen : vs.length = b.size
  · rw [if_neg (by simp [hlen, hln]),
      if_pos (fillLine_conflict_aux b ln vs j hsi hj hln hlen h0 hne)]
  · rw [if_pos (Or.inl hlen)]

theorem fillLine_preserves_invariant (b : Board) (ln : Nat) (vs : List Int)
    (hsi : Board.shapeOk b.size b.boardInit = true) (h : boardInvariant b) :
    boardInvariant (b.fillLine ln vs).2 := by
  unfold Board.fillLine
  by_cases hfail : vs.length ≠ b.size ∨ ¬ ln < b.size
  · rw [if_pos hfail]
    exact h
  · push_neg at hfail
    obtain ⟨hlen, hln⟩ := hfail
    rw [if_neg (by simp [hlen, hln])]
    by_cases hc : Board.initConflict (b.boardInit.getD ln []) vs = true
    · rw [if_pos hc]
      exact h
    · rw [if_neg hc]
      intro q h0
      show getCell (b.board.set ln vs) q = getCell b.boardInit q
      have hin : q.x < b.size ∧ q.y < b.size := by
        by_contra hin
        exact h0 (getCell_default_of_oob b.boardInit b.size q hsi hin)
      by_cases hq : q.y = ln
      · by_cases hbl : ln < b.board.length
        · have hrow : getCell (b.board.set ln vs) q = vs.getD q.x 0 := by
            unfold getCell
            rw [hq, getD_set_self _ _ _ _ hbl]
          rw [hrow]
          by_contra hne
          exact hc (fillLine_conflict_aux b ln vs q.x hsi hin.1 hln hlen
            (by rw [← hq]; exact h0) (by rw [← hq]; exact hne))
        · unfold getCell
          rw [List.set_eq_of_length_le (Nat.le_of_not_lt hbl)]
          exact h q h0
      · have : getCell (b.board.set ln vs) q = getCell b.board q := by
          unfold getCell
          rw [getD_set_ne _ _ _ _ _ (fun hh => hq hh.symm)]
        rw [this]
        exact h q h0

/-- The success path of `set_init_state` is reached only when every line
parsed cleanly with exactly `size` tokens and exactly `size` lines were
consumed. -/
theorem initFromFileAux_ok_true (size : Nat) :
    ∀ (lines : List (List (Option Int))) (board : List (List Int)) (lineNum : Nat)
      (res : Bool × List (List Int)),
      initFromFileAux size lines board lineNum = .ok res → res.1 = true →
      (∀ l ∈ lines, none ∉ l ∧ l.length = size) ∧ lineNum + lines.length = size := by
  intro lines
  induction lines with
  | nil =>
    intro board lineNum res h htrue
    simp only [initFromFileAux, Except.ok.injEq] at h
    rw [← h] at htrue
    simp only [decide_eq_true_eq] at htrue
    simpa using htrue
  | cons data rest ih =>
    intro board lineNum res h htrue
    by_cases hbad : none ∈ data ∨ data.length ≠ size
    · simp only [initFromFileAux, if_pos hbad, Except.ok.injEq] at h
      rw [← h] at htrue
      simp at htrue
    · by_cases hlt : lineNum < size
      · simp only [initFromFileAux, if_neg hbad, if_pos hlt] at h
        obtain ⟨hall, hsum⟩ := ih _ _ _ h htrue
        push_neg at hbad
        refine ⟨?_, by simp only [List.length_cons]; omega⟩
        intro l hl
        rcases List.mem_cons.mp hl with rfl | hl
        · exact ⟨hbad.1, hbad.2⟩
        · exact hall l hl
      · simp only [initFromFileAux, if_neg hbad, if_neg hlt] at h
        cases h

/-- C1: after `load`, `is_initial(p)` holds exactly at the in-bounds
positions whose originally loaded value was non-zero; `set` returns `False`
and leaves the grid unchanged on an initial cell; `fill_board` and
`fill_line` fail and leave the grid unchanged whenever an initial cell in
scope would receive a different value; and every mutation operation preserves
the invariant that each initially non-zero cell still holds its initial
value. -/
theorem c1_initial_cells_protected :
    (∀ (size : Nat) (init : List (List Int)) (p : Pos),
        (loadedBoard size init).isValid p = true →
        ((loadedBoard size init).isInitial p = true ↔ getCell init p ≠ 0))
    ∧ (∀ (b : Board) (p : Pos) (v : Int), b.isInitial p = true → b.set p v = (false, b))
    ∧ (∀ (b : Board) (vs : List (List Int)) (p : Pos),
        Board.shapeOk b.size b.boardInit = true → p.x < b.size → p.y < b.size →
        getCell b.boardInit p ≠ 0 → getCell vs p ≠ getCell b.boardInit p →
        b.fillBoard vs = (false, b))
    ∧ (∀ (b : Board) (ln : Nat) (vs : List Int) (j : Nat),
        Board.shapeOk b.size b.boardInit = true → j < b.size → ln < b.size →
        (b.boardInit.getD ln []).getD j 0 ≠ 0 →
        vs.getD j 0 ≠ (b.boardInit.getD ln []).getD j 0 →
        b.fillLine ln vs = (some false, b))
    ∧ (∀ (b : Board) (p : Pos) (v : Int), boardInvariant b → boardInvariant (b.set p v).2)
    ∧ (∀ (b : Board) (vs : List (List Int)), Board.shapeOk b.size b.boardInit = true →
        boardInvariant b → boardInvariant (b.fillBoard vs).2)
    ∧ (∀ (b : Board) (ln : Nat) (vs : List Int), Board.shapeOk b.size b.boardInit = true →
        boardInvariant b → boardInvariant (b.fillLine ln vs).2) := by
  refine ⟨?_, set_of_initial, fillBoard_of_conflict, fillLine_of_conflict,
    set_preserves_invariant, fillBoard_preserves_invariant, fillLine_preserves_invariant⟩
  intro size init p h
  simp only [Board.isInitial, h, Bool.true_and, decide_eq_true_eq]
  exact Iff.rfl

/-- Witness for C1: the initial cell `(0, 0)` of the loaded two-blank puzzle
rejects both a single-cell write and a bulk write that would change it. -/
theorem c1_witness :
    bTwoBlank4.set ⟨0, 0⟩ 2 = (false, bTwoBlank4)
    ∧ bTwoBlank4.fillBoard [[2, 2, 2, 2], [3, 4, 1, 2], [2, 1, 4, 3], [4, 3, 2, 1]]
        = (false, bTwoBlank4) :=
  ⟨c1_initial_cells_protected.2.1 bTwoBlank4 ⟨0, 0⟩ 2 (by decide),
   c1_initial_cells_protected.2.2.1 bTwoBlank4
     [[2, 2, 2, 2], [3, 4, 1, 2], [2, 1, 4, 3], [4, 3, 2, 1]] ⟨0, 0⟩
     (by decide) (by decide) (by decide) (by decide) (by decide)⟩

/-- C5: on a puzzle with no row holding two or more blanks, `try_solve`
returns score `0` and iterations `0` without entering the restart loop — but
`_solve_trivial` never fills the board (despite its docstring), so the grid
handed back is the reset initial grid whose blank cell leaves its row, column
and block invalid: `check` counts 3 mistakes, not the 0 the claim requires. -/
theorem c5_trivial_branch_eval :
    trySolve bOneBlank4 false [] = (bOneBlank4, (some 0, some 0))
    ∧ bOneBlank4.check.1 = 3 :=
  ⟨by decide, by decide⟩

/-- C7: a successful `fill_line` call mutates the row but returns Python
`None` (modelled `none`) because the function falls through without a
`return True`; the sibling `fill_board` does return `True` on success. -/
theorem c7_fill_line_eval :
    (bTwoBlank4.fillLine 0 [1, 2, 3, 4]).1 = none
    ∧ (bTwoBlank4.fillLine 0 [1, 2, 3, 4]).2.board
        = [[1, 2, 3, 4], [3, 4, 1, 2], [2, 1, 4, 3], [4, 3, 2, 1]]
    ∧ (bTwoBlank4.fillLine 0 [1, 2, 3, 4]).2.board ≠ bTwoBlank4.board
    ∧ bTwoBlank4.fillBoard [[1, 2, 3, 4], [3, 4, 1, 2], [2, 1, 4, 3], [4, 3, 2, 1]]
        = (true, ⟨4, [[1, 2, 3, 4], [3, 4, 1, 2], [2, 1, 4, 3], [4, 3, 2, 1]],
            mTwoBlank4, unfilledOf mTwoBlank4⟩) :=
  ⟨by decide, by decide, by decide, by decide⟩

/-- C6 counterexample: a failed `load` over a previously valid grid returns
`False` but leaves the first parsed row `[9, 9, 9, 9]` in the working grid —
the working grid is corrupted even though the frozen snapshot and the blank
index are untouched. -/
theorem c6_counterexample :
    setInitState bPerfect4 badLines4 = .ok (false, bCorrupted)
    ∧ bCorrupted.board ≠ bPerfect4.board
    ∧ bCorrupted.boardInit = bPerfect4.boardInit
    ∧ bCorrupted.unfilled = bPerfect4.unfilled :=
  ⟨rfl, by decide, rfl, rfl⟩

/-- C6 (amended): a failed `load` returns `False` with the frozen snapshot,
the blank index and the size unchanged (the working grid may retain partially
parsed rows); a line with a failed token or the wrong token count, or a line
count different from `size`, never yields a successful load. -/
theorem c6_load_failure_behaviour :
    (∀ (b : Board) (lines : List (List (Option Int))) (res : Bool × Board),
        setInitState b lines = .ok res → res.1 = false →
        res.2.boardInit = b.boardInit ∧ res.2.unfilled = b.unfilled ∧ res.2.size = b.size)
    ∧ (∀ (b : Board) (lines : List (List (Option Int))),
        (∃ l ∈ lines, none ∈ l ∨ l.length ≠ b.size) →
        ∀ b' : Board, setInitState b lines ≠ .ok (true, b'))
    ∧ (∀ (b : Board) (lines : List (List (Option Int))),
        lines.length ≠ b.size →
        ∀ b' : Board, setInitState b lines ≠ .ok (true, b')) := by
  refine ⟨?_, ?_, ?_⟩
  · intro b lines res h hf
    cases hinit : initFromFileAux b.size lines b.board 0 with
    | error e =>
      have hval : setInitState b lines = .error e := by
        unfold setInitState
        rw [hinit]
      rw [hval] at h
      cases h
    | ok pr =>
      obtain ⟨succ, nb⟩ := pr
      cases succ with
      | true =>
        have hval : setInitState b lines
            = .ok (true, ⟨b.size, nb, nb, updateUnfilled b.unfilled nb⟩) := by
          unfold setInitState
          rw [hinit]
          rfl
        rw [hval] at h
        simp only [Except.ok.injEq] at h
        rw [← h] at hf
        simp at hf
      | false =>
        have hval : setInitState b lines = .ok (false, { b with board := nb }) := by
          unfold setInitState
          rw [hinit]
          rfl
        rw [hval] at h
        simp only [Except.ok.injEq] at h
        rw [← h]
        exact ⟨rfl, rfl, rfl⟩
  · intro b lines hex b' h
    cases hinit : initFromFileAux b.size lines b.board 0 with
    | error e =>
      have hval : setInitState b lines = .error e := by
        unfold setInitState
        rw [hinit]
      rw [hval] at h
      cases h
    | ok pr =>
      obtain ⟨succ, nb⟩ := pr
      cases succ with
      | true =>
        obtain ⟨hall, -⟩ := initFromFileAux_ok_true b.size lines b.board 0 (true, nb) hinit rfl
        obtain ⟨l, hl, hbadl⟩ := hex
        obtain ⟨hnone, hlen⟩ := hall l hl
        rcases hbadl with hbadl | hbadl
        · exact hnone hbadl
        · exact hbadl hlen
      | false =>
        have hval : setInitState b lines = .ok (false, { b with board := nb }) := by
          unfold setInitState
          rw [hinit]
          rfl
        rw [hval] at h
        simp only [Except.ok.injEq, Prod.mk.injEq] at h
        exact absurd h.1 (by simp)
  · intro b lines hcount b' h
    cases hinit : initFromFileAux b.size lines b.board 0 with
    | error e =>
      have hval : setInitState b lines = .error e := by
        unfold setInitState
        rw [hinit]
      rw [hval] at h
      cases h
    | ok pr =>
      obtain ⟨succ, nb⟩ := pr
      cases succ with
      | true =>
        obtain ⟨-, hsum⟩ := initFromFileAux_ok_true b.size lines b.board 0 (true, nb) hinit rfl
        omega
      | false =>
        have hval : setInitState b lines = .ok (false, { b with board := nb }) := by
          unfold setInitState
          rw [hinit]
          rfl
        rw [hval] at h
        simp only [Except.ok.injEq, Prod.mk.injEq] at h
        exact absurd h.1 (by simp)

/-- Witness for the amended C6 at the concrete failed load. -/
theorem c6_amended_witness :
    bCorrupted.boardInit = bPerfect4.boardInit ∧ bCorrupted.unfilled = bPerfect4.unfilled
    ∧ bCorrupted.size = bPerfect4.size :=
  c6_load_failure_behaviour.1 bPerfect4 badLines4 (false, bCorrupted) rfl rfl

/-- C9 counterexample: constructing a β-hill-climbing solver with `n = 2`
(outside `[0, 1]`) succeeds — the configuration is stored verbatim with no
validation — and the precondition failure only surfaces when
`_with_probability` is first evaluated during a step. -/
theorem c9_counterexample :
    betaHCInit bOpMid4 1 1 2 0 false
      = { board := bOpMid4, maxRestarts := 1, maxIter := 1, nProb := 2, betaProb := 0,
          stopIfFound := false }
    ∧ withProbability 2 (mkRat 1 2) = .error () :=
  ⟨rfl, by simp [withProbability]⟩

/-- C9 (amended): `_BetaHC.__init__` stores `n` and `beta` unchecked for
every value, and the `0 ≤ prob ≤ 1` assertion is enforced (fatally) by
`_with_probability` at the first draw, not at construction. -/
theorem c9_assert_fires_at_first_draw :
    (∀ (board : Board) (mr mi : Nat) (n beta : ℚ) (s : Bool),
        betaHCInit board mr mi n beta s
          = { board := board, maxRestarts := mr, maxIter := mi, nProb := n,
              betaProb := beta, stopIfFound := s })
    ∧ (∀ prob draw : ℚ, ¬ (0 ≤ prob ∧ prob ≤ 1) → withProbability prob draw = .error ())
    ∧ (∀ prob draw : ℚ, (0 ≤ prob ∧ prob ≤ 1) →
        withProbability prob draw = .ok (withProb prob draw)) :=
  ⟨fun _ _ _ _ _ _ => rfl, fun _ _ h => if_neg h, fun _ _ h => if_pos h⟩

/-- Witness for the amended C9: probability `2` errors at the draw. -/
theorem c9_witness : withProbability 2 0 = .error () :=
  c9_assert_fires_at_first_draw.2.1 2 0 (by norm_num)

/-!  The restart driver (C2). -/

/-- The two sequential best-so-far updates of `_solve` collapse to the
two-key lexicographic comparison. -/
theorem driverUpdate_eval (sc it s i : Nat) (sn bd : Board) :
    (let acc1 := if ltOpt sc (some s) then ((some sc : Option Nat), some it, some sn)
                 else ((some s : Option Nat), some i, some bd)
     if eqOpt sc acc1.1 ∧ ltOpt it acc1.2.1 then ((some sc : Option Nat), some it, some sn)
     else acc1)
    = if sc < s then ((some sc : Option Nat), some it, some sn)
      else if sc = s ∧ it < i then ((some sc : Option Nat), some it, some sn)
      else ((some s : Option Nat), some i, some bd) := by
  by_cases h1 : sc < s
  · simp [ltOpt, eqOpt, h1]
  · by_cases h2 : sc = s ∧ it < i
    · simp [ltOpt, eqOpt, h1, h2]
    · simp [ltOpt, eqOpt, h1, h2]

/-- The driver fold starting from a finite best `(s, i, bd)` computes the
two-key minimum of the start and all listed outcomes, and its retained board
is the paired snapshot. -/
theorem solveDriverAux_min (stop : Bool) :
    ∀ (rs : List (Nat × Nat × Board)) (s i : Nat) (bd : Board),
      (stop = false ∨ ∀ r ∈ rs, r.1 ≠ 0) →
      ∃ s' i' bd',
        solveDriverAux stop rs (some s, some i, some bd) = (some s', some i', some bd') ∧
        ((s' = s ∧ i' = i ∧ bd' = bd) ∨ (s', i', bd') ∈ rs) ∧
        s' ≤ s ∧ (∀ r ∈ rs, s' ≤ r.1) ∧
        (s' = s → i' ≤ i) ∧ (∀ r ∈ rs, r.1 = s' → i' ≤ r.2.1) := by
  intro rs
  induction rs with
  | nil =>
    intro s i bd _
    exact ⟨s, i, bd, rfl, Or.inl ⟨rfl, rfl, rfl⟩, le_refl s, by simp, fun _ => le_refl i, by simp⟩
  | cons r rest ih =>
    obtain ⟨sc, it, sn⟩ := r
    intro s i bd hstop
    have hrest : stop = false ∨ ∀ r ∈ rest, r.1 ≠ 0 := by
      rcases hstop with hstop | hstop
      · exact Or.inl hstop
      · exact Or.inr (fun r hr => hstop r (List.mem_cons_of_mem _ hr))
    have hnostop : ¬ (stop = true ∧ sc = 0) := by
      rcases hstop with hstop | hstop
      · rintro ⟨h', -⟩
        rw [hstop] at h'
        cases h'
      · rintro ⟨-, h0⟩
        exact hstop (sc, it, sn) (List.mem_cons_self _ _) h0
    have hstep : solveDriverAux stop ((sc, it, sn) :: rest) (some s, some i, some bd)
        = solveDriverAux stop rest
            (if sc < s then ((some sc : Option Nat), some it, some sn)
             else if sc = s ∧ it < i then ((some sc : Option Nat), some it, some sn)
             else ((some s : Option Nat), some i, some bd)) := by
      rw [solveDriverAux, if_neg hnostop, ← driverUpdate_eval sc it s i sn bd]
    by_cases h1 : sc < s
    · rw [hstep, if_pos h1]
      obtain ⟨s', i', bd', heq, hmem, hles, hall, hieq, hiall⟩ := ih sc it sn hrest
      refine ⟨s', i', bd', heq, ?_, ?_, ?_, ?_, ?_⟩
      · rcases hmem with ⟨rfl, rfl, rfl⟩ | hmem
        · exact Or.inr (List.mem_cons_self _ _)
        · exact Or.inr (List.mem_cons_of_mem _ hmem)
      · omega
      · intro r hr
        rcases List.mem_cons.mp hr with rfl | hr
        · exact hles
        · exact hall r hr
      · intro hs'
        omega
      · intro r hr hrs
        rcases List.mem_cons.mp hr with rfl | hr
        · exact hieq hrs.symm
        · exact hiall r hr hrs
    · by_cases h2 : sc = s ∧ it < i
      · rw [hstep, if_neg h1, if_pos h2]
        obtain ⟨h2s, h2i⟩ := h2
        obtain ⟨s', i', bd', heq, hmem, hles, hall, hieq, hiall⟩ := ih sc it sn hrest
        refine ⟨s', i', bd', heq, ?_, ?_, ?_, ?_, ?_⟩
        · rcases hmem with ⟨rfl, rfl, rfl⟩ | hmem
          · exact Or.inr (List.mem_cons_self _ _)
          · exact Or.inr (List.mem_cons_of_mem _ hmem)
        · omega
        · intro r hr
          rcases List.mem_cons.mp hr with rfl | hr
          · exact hles
          · exact hall r hr
        · intro hs'
          have := hieq (by omega)
          omega
        · intro r hr hrs
          rcases List.mem_cons.mp hr with rfl | hr
          · exact hieq hrs.symm
          · exact hiall r hr hrs
      · rw [hstep, if_neg h1, if_neg h2]
        obtain ⟨s', i', bd', heq, hmem, hles, hall, hieq, hiall⟩ := ih s i bd hrest
        refine ⟨s', i', bd', heq, ?_, hles, ?_, hieq, ?_⟩
        · rcases hmem with ⟨rfl, rfl, rfl⟩ | hmem
          · exact Or.inl ⟨rfl, rfl, rfl⟩
          · exact Or.inr (List.mem_cons_of_mem _ hmem)
        · intro r hr
          rcases List.mem_cons.mp hr with rfl | hr
          · omega
          · exact hall r hr
        · intro r hr hrs
          rcases List.mem_cons.mp hr with rfl | hr
          · have hss : s' = s := by omega
            have hi : i' ≤ i := hieq hss
            have hit : ¬ it < i := fun hit => h2 ⟨by omega, hit⟩
            show i' ≤ it
            omega
          · exact hiall r hr hrs

/-- C2: across `R ≥ 1` restarts with `stop_if_found` unset or never
triggered, the driver's final `Result` has score ≤ the score of every
restart's `Result`; among the restarts tied on that minimum score its
iteration count equals the minimum iteration count; and the retained grid
snapshot is the one paired with a restart attaining exactly that score and
iteration count. -/
theorem c2_driver_two_key_best (stop : Bool) (rs : List (Nat × Nat × Board))
    (hne : rs ≠ []) (hstop : stop = false ∨ ∀ r ∈ rs, r.1 ≠ 0) :
    ∃ s i bd, solveDriver stop rs = (some s, some i, some bd) ∧
      (∀ r ∈ rs, s ≤ r.1) ∧ (∀ r ∈ rs, r.1 = s → i ≤ r.2.1) ∧ (s, i, bd) ∈ rs := by
  cases rs with
  | nil => exact absurd rfl hne
  | cons r rest =>
    obtain ⟨sc, it, sn⟩ := r
    have hrest : stop = false ∨ ∀ r ∈ rest, r.1 ≠ 0 := by
      rcases hstop with hstop | hstop
      · exact Or.inl hstop
      · exact Or.inr (fun r hr => hstop r (List.mem_cons_of_mem _ hr))
    have hnostop : ¬ (stop = true ∧ sc = 0) := by
      rcases hstop with hstop | hstop
      · rintro ⟨h', -⟩
        rw [hstop] at h'
        cases h'
      · rintro ⟨-, h0⟩
        exact hstop (sc, it, sn) (List.mem_cons_self _ _) h0
    have hstep : solveDriver stop ((sc, it, sn) :: rest)
        = solveDriverAux stop rest (some sc, some it, some sn) := by
      rw [solveDriver, solveDriverAux, if_neg hnostop]
      simp [ltOpt, eqOpt]
    obtain ⟨s', i', bd', heq, hmem, hles, hall, hieq, hiall⟩ :=
      solveDriverAux_min stop rest sc it sn hrest
    refine ⟨s', i', bd', by rw [hstep]; exact heq, ?_, ?_, ?_⟩
    · intro r hr
      rcases List.mem_cons.mp hr with rfl | hr
      · exact hles
      · exact hall r hr
    · intro r hr hrs
      rcases List.mem_cons.mp hr with rfl | hr
      · show i' ≤ it
        exact hieq hrs.symm
      · exact hiall r hr hrs
    · rcases hmem with ⟨rfl, rfl, rfl⟩ | hmem
      · exact List.mem_cons_self _ _
      · exact List.mem_cons_of_mem _ hmem

/-- Witness for C2 on three concrete restarts: scores 2, 1, 1 with iteration
counts 5, 7, 6 — the driver must settle on score 1 with 6 iterations. -/
theorem c2_witness :
    ∃ s i bd, solveDriver false outcomesEx = (some s, some i, some bd) ∧
      (∀ r ∈ outcomesEx, s ≤ r.1) ∧ (∀ r ∈ outcomesEx, r.1 = s → i ≤ r.2.1)
      ∧ (s, i, bd) ∈ outcomesEx :=
  c2_driver_two_key_best false outcomesEx (by simp [outcomesEx]) (Or.inl rfl)

/-!  `check` and the permutation characterisation (C3). -/

theorem multiset_cons_le_iff {α : Type} [DecidableEq α] (a : α) (s t : Multiset α) :
    a ::ₘ s ≤ t ↔ a ∈ t ∧ s ≤ t.erase a := by
  constructor
  · intro h
    have ha : a ∈ t := Multiset.mem_of_le h (Multiset.mem_cons_self a s)
    refine ⟨ha, ?_⟩
    have h' := Multiset.erase_le_erase a h
    rwa [Multiset.erase_cons_head] at h'
  · rintro ⟨ha, hs⟩
    have h' : a ::ₘ s ≤ a ::ₘ t.erase a := Multiset.cons_le_cons a hs
    rwa [Multiset.cons_erase ha] at h'

theorem checkUniqueAux_iff :
    ∀ (l : List Int) (free : Finset Int),
      checkUniqueAux l free = true ↔ (0 : Int) ∉ l ∧ (l : Multiset Int) ≤ free.val := by
  intro l
  induction l with
  | nil =>
    intro free
    simp [checkUniqueAux]
  | cons x xs ih =>
    intro free
    by_cases hbad : x = 0 ∨ x ∉ free
    · rw [checkUniqueAux, if_pos hbad]
      simp only [Bool.false_eq_true, false_iff]
      rintro ⟨h0, hle⟩
      rcases hbad with rfl | hnf
      · exact h0 (List.mem_cons_self _ _)
      · have hx : x ∈ free.val :=
          Multiset.mem_of_le (by rwa [← Multiset.cons_coe] at hle) (Multiset.mem_cons_self x ↑xs)
        exact hnf (Finset.mem_val.mp hx)
    · rw [checkUniqueAux, if_neg hbad, ih (free.erase x)]
      push_neg at hbad
      obtain ⟨hx0, hxf⟩ := hbad
      rw [Finset.erase_val]
      constructor
      · rintro ⟨h0, hle⟩
        refine ⟨?_, ?_⟩
        · intro hmem
          rcases List.mem_cons.mp hmem with heq | hmem'
          · exact hx0 heq.symm
          · exact h0 hmem'
        · rw [← Multiset.cons_coe, multiset_cons_le_iff]
          exact ⟨Finset.mem_val.mpr hxf, hle⟩
      · rintro ⟨h0, hle⟩
        rw [← Multiset.cons_coe, multiset_cons_le_iff] at hle
        exact ⟨fun hm => h0 (List.mem_cons_of_mem _ hm), hle.2⟩

/-- `_check_unique` accepts an area exactly when it is a permutation of
`1..len(area)`. -/
theorem checkUnique_iff_perm (area : List Int) :
    checkUnique area = true ↔ isPermOfOneTo area.length area := by
  rw [checkUnique, checkUniqueAux_iff, isPermOfOneTo]
  constructor
  · rintro ⟨h0, hle⟩
    refine Multiset.eq_of_le_of_card_le hle ?_
    have hc : Multiset.card (Finset.Icc (1 : Int) (area.length : Int)).val = area.length := by
      rw [← Finset.card_def, Int.card_Icc]
      simp
    rw [Multiset.coe_card, hc]
  · intro h
    refine ⟨?_, h ▸ le_refl _⟩
    intro hmem
    have h0 : (0 : Int) ∈ (Finset.Icc (1 : Int) (area.length : Int)).val := by
      rw [← h]
      exact Multiset.mem_coe.mpr hmem
    rw [Finset.mem_val, Finset.mem_Icc] at h0
    omega

/-- Under the shape invariant, every constraint area has exactly `size`
tiles. -/
theorem areasList_length (b : Board) (hs : Board.shapeOk b.size b.board = true)
    (hsq : b.sizeSq * b.sizeSq = b.size) :
    ∀ a ∈ b.areasList, a.length = b.size := by
  simp only [Board.shapeOk, Bool.and_eq_true, decide_eq_true_eq, List.all_eq_true] at hs
  intro a ha
  rcases List.mem_append.mp ha with ha | ha
  · rcases List.mem_append.mp ha with ha | ha
    · exact hs.2 a ha
    · obtain ⟨i, hi, rfl⟩ := List.mem_map.mp ha
      rw [List.length_map]
      exact hs.1
  · rw [Board.squaresList] at ha
    obtain ⟨hr, hhr, ha⟩ := List.mem_flatMap.mp ha
    obtain ⟨vert, hv, rfl⟩ := List.mem_map.mp ha
    rw [List.mem_range] at hhr hv
    have hvq : (vert + 1) * b.sizeSq ≤ b.size := by
      have h1 : (vert + 1) * b.sizeSq ≤ b.sizeSq * b.sizeSq :=
        Nat.mul_le_mul_right _ (Nat.succ_le_of_lt hv)
      omega
    have hvq' : vert * b.sizeSq + b.sizeSq ≤ b.size := by
      rw [Nat.succ_mul] at hvq
      exact hvq
    have hslice : ((b.board.drop (vert * b.sizeSq)).take b.sizeSq).length = b.sizeSq := by
      rw [List.length_take, List.length_drop, hs.1, Nat.min_eq_left (by omega)]
    have hrows : ∀ row ∈ (b.board.drop (vert * b.sizeSq)).take b.sizeSq,
        ((row.drop (hr * b.sizeSq)).take b.sizeSq).length = b.sizeSq := by
      intro row hrow
      have hrowb : row ∈ b.board := List.mem_of_mem_drop (List.mem_of_mem_take hrow)
      have hrlen : row.length = b.size := hs.2 row hrowb
      have h1 : (hr + 1) * b.sizeSq ≤ b.sizeSq * b.sizeSq :=
        Nat.mul_le_mul_right _ (Nat.succ_le_of_lt hhr)
      rw [Nat.succ_mul] at h1
      rw [List.length_take, List.length_drop, hrlen]
      rw [Nat.min_eq_left (by omega)]
    rw [List.length_flatten, List.map_map]
    have hall : ∀ x ∈ List.map (List.length ∘ fun row => (row.drop (hr * b.sizeSq)).take b.sizeSq)
        ((b.board.drop (vert * b.sizeSq)).take b.sizeSq), x = b.sizeSq := by
      intro x hx
      obtain ⟨row, hrow, rfl⟩ := List.mem_map.mp hx
      exact hrows row hrow
    rw [List.eq_replicate_of_mem hall, List.sum_replicate, List.length_map, hslice,
      smul_eq_mul]
    exact hsq

/-- C3: `check()` returns `(m, m / (3·size))` where `m` counts the constraint
areas that are not a permutation of `1..size` (one mistake per failing area,
whether the defect is a duplicate, a blank or an out-of-range value); on a
grid whose every area is such a permutation it returns `(0, 0.0)`. -/
theorem c3_check_mistake_count (b : Board)
    (hs : Board.shapeOk b.size b.board = true) (hsq : b.sizeSq * b.sizeSq = b.size) :
    b.check.1 = (b.areasList.filter (fun a => ! decide (isPermOfOneTo b.size a))).length
    ∧ b.check.2 = (b.check.1 : ℚ) / (3 * b.size)
    ∧ ((∀ a ∈ b.areasList, isPermOfOneTo b.size a) → b.check = (0, 0)) := by
  have hlen := areasList_length b hs hsq
  have hpoint : ∀ a ∈ b.areasList,
      (! checkUnique a) = (! decide (isPermOfOneTo b.size a)) := by
    intro a ha
    have h1 := checkUnique_iff_perm a
    rw [hlen a ha] at h1
    cases hcu : checkUnique a
    · have hnp : ¬ isPermOfOneTo b.size a := fun hp => by
        rw [h1.mpr hp] at hcu
        cases hcu
      simp [hnp]
    · simp [h1.mp hcu]
  have hemp : (∀ a ∈ b.areasList, isPermOfOneTo b.size a) →
      b.areasList.filter (fun a => ! checkUnique a) = [] := by
    intro hall
    rw [List.filter_eq_nil_iff]
    intro a ha
    have h1 := checkUnique_iff_perm a
    rw [hlen a ha] at h1
    rw [h1.mpr (hall a ha)]
    simp
  refine ⟨?_, rfl, ?_⟩
  · show (b.areasList.filter (fun a => ! checkUnique a)).length = _
    exact congrArg List.length (List.filter_congr hpoint)
  · intro hall
    have h1 : b.check.1 = 0 := by
      show (b.areasList.filter (fun a => ! checkUnique a)).length = 0
      rw [hemp hall]
      rfl
    have h2 : b.check.2 = 0 := by
      show ((b.areasList.filter (fun a => ! checkUnique a)).length : ℚ) / (3 * b.size) = 0
      rw [hemp hall]
      simp
    exact Prod.ext h1 h2

/-- Witness for C3: the solved 4×4 grid, whose every area is a permutation of
`1..4`, checks to `(0, 0.0)`. -/
theorem c3_witness : bPerfect4.check = (0, 0) :=
  (c3_check_mistake_count bPerfect4 (by decide) (by decide)).2.2 (by decide)

/-!  The deviation objective (C4). -/

/-- C4 counterexample: on the solved 4×4 grid every constraint area sums to
the spec target `4·5/2 = 10`, yet the objective — whose source hardcodes
`abs(45 - np.sum(tiles))` — evaluates to `12 · |45 − 10| = 420`, not `0`;
the spec-formula deviation is `0` there, so the two disagree. -/
theorem c4_counterexample :
    objective bPerfect4 = 420 ∧ deviationSpec bPerfect4 = 0
    ∧ objective bPerfect4 ≠ deviationSpec bPerfect4 :=
  ⟨by decide, by decide, by decide⟩

/-- Summing `evalTiles` over a list of areas vanishes exactly when every area
sums to the hardcoded target `45`. -/
theorem sum_evalTiles_eq_zero (L : List (List Int)) :
    (L.map evalTiles).sum = 0 ↔ ∀ a ∈ L, a.sum = 45 := by
  induction L with
  | nil => simp
  | cons a L ih =>
    simp only [List.map_cons, List.sum_cons, List.forall_mem_cons]
    have h1 : 0 ≤ evalTiles a := abs_nonneg _
    have h2 : 0 ≤ (L.map evalTiles).sum :=
      List.sum_nonneg (by
        intro x hx
        obtain ⟨a', -, rfl⟩ := List.mem_map.mp hx
        exact abs_nonneg _)
    rw [add_eq_zero_iff_of_nonneg h1 h2, ih, evalTiles, abs_eq_zero, sub_eq_zero]
    constructor
    · rintro ⟨h45, hrest⟩
      exact ⟨h45.symm, hrest⟩
    · rintro ⟨h45, hrest⟩
      exact ⟨h45.symm, hrest⟩

/-- C4 (amended): the deviation objective is the sum of `|45 − sum(area)|`
over all areas — the target is the hardcoded size-9 value `45`, not
`size·(size+1)/2` — hence it is non-negative, zero iff every area sums to
`45`, and it agrees with the specification's formula exactly when
`size = 9`. -/
theorem c4_objective_hardcodes_45 :
    (∀ b : Board, 0 ≤ objective b)
    ∧ (∀ b : Board, (objective b = 0 ↔ ∀ a ∈ b.areasList, a.sum = 45))
    ∧ (∀ b : Board, b.size = 9 → objective b = deviationSpec b) := by
  refine ⟨?_, ?_, ?_⟩
  · intro b
    apply List.sum_nonneg
    intro x hx
    obtain ⟨a, -, rfl⟩ := List.mem_map.mp hx
    exact abs_nonneg _
  · intro b
    exact sum_evalTiles_eq_zero b.areasList
  · intro b hs
    rw [objective, deviationSpec, hs]
    norm_num
    rfl

/-- Witness for the amended C4: a size-9 board on which the objective and the
spec formula agree, and the solved 4×4 grid instantiating the zero-iff-45
reading. -/
theorem c4_witness :
    objective (loadedBoard 9 []) = deviationSpec (loadedBoard 9 [])
    ∧ (objective bPerfect4 = 0 ↔ ∀ a ∈ bPerfect4.areasList, a.sum = 45) :=
  ⟨c4_objective_hardcodes_45.2.2 (loadedBoard 9 []) rfl,
   c4_objective_hardcodes_45.2.1 bPerfect4⟩

/-!  The n-operator (C8). -/

/-- C8 counterexample: with `n = 0` a gate draw of exactly `0` fires the
`draw ≤ n` test (`random.random()` can return `0.0`), so the operator is not
the identity on the mid-value board; and with `n = 1` on a board whose
modifiable cells hold the ceiling value `4`, the increment draws are clamped
and the operator changes nothing — not every modifiable cell is altered. -/
theorem c8_counterexample :
    (neighbouringOperator bOpMid4 0 (fun _ => 0) 0).1 ≠ bOpMid4
    ∧ (neighbouringOperator bOpTop4 1 (fun _ => 0) 0).1 = bOpTop4 :=
  ⟨by decide, by decide⟩

/-- With probability `0` and strictly positive gate draws, the value pass of
the n-operator changes nothing. -/
theorem nOpAux_id (size : Nat) (draws : Nat → ℚ) (hd : ∀ j, 0 < draws j) :
    ∀ (ps : List Pos) (values : List (List Int)) (k : Nat),
      (nOpAux size 0 draws ps values k).1 = values := by
  intro ps
  induction ps with
  | nil => intro values k; rfl
  | cons p ps ih =>
    intro values k
    rw [nOpAux, if_neg (by simp [withProb, not_le.mpr (hd k)])]
    exact ih values (k + 1)

/-- Cells outside the processed position list are untouched by the value pass
of the n-operator. -/
theorem nOpAux_notmem (size : Nat) (nProb : ℚ) (draws : Nat → ℚ) :
    ∀ (ps : List Pos) (values : List (List Int)) (k : Nat) (p : Pos), p ∉ ps →
      getCell ((nOpAux size nProb draws ps values k).1) p = getCell values p := by
  intro ps
  induction ps with
  | nil => intro values k p _; rfl
  | cons q ps ih =>
    intro values k p hp
    have hpq : p ≠ q := fun h => hp (h ▸ List.mem_cons_self _ _)
    have hp' : p ∉ ps := fun h => hp (List.mem_cons_of_mem _ h)
    rw [nOpAux]
    by_cases hg : withProb nProb (draws k) = true
    · rw [if_pos hg, ih _ _ _ hp']
      exact getCell_setCell_ne _ _ _ _ hpq
    · rw [if_neg hg]
      exact ih _ _ _ hp'

/-- The value pass of the n-operator preserves the matrix shape. -/
theorem nOpAux_shape (size : Nat) (nProb : ℚ) (draws : Nat → ℚ) (s : Nat) :
    ∀ (ps : List Pos) (values : List (List Int)) (k : Nat),
      Board.shapeOk s values = true →
      Board.shapeOk s ((nOpAux size nProb draws ps values k).1) = true := by
  intro ps
  induction ps with
  | nil => intro values k h; exact h
  | cons q ps ih =>
    intro values k h
    rw [nOpAux]
    by_cases hg : withProb nProb (draws k) = true
    · rw [if_pos hg]
      exact ih _ _ (shapeOk_setCell s values q _ h)
    · rw [if_neg hg]
      exact ih _ _ h

/-- With probability `1` and draws bounded by `1` (as `random.random()`
produces), every listed cell is replaced by a neighbouring value of its old
value. -/
theorem nOpAux_one_mem (size : Nat) (draws : Nat → ℚ) (hd : ∀ j, draws j ≤ 1) (s : Nat) :
    ∀ (ps : List Pos) (values : List (List Int)) (k : Nat) (p : Pos),
      p ∈ ps → ps.Nodup → Board.shapeOk s values = true → p.x < s → p.y < s →
      ∃ c : ℚ, getCell ((nOpAux size 1 draws ps values k).1) p
        = neighbouringVal size c (getCell values p) := by
  intro ps
  induction ps with
  | nil => intro values k p hp; exact absurd hp (List.not_mem_nil p)
  | cons q ps ih =>
    intro values k p hp hnd hsv hx hy
    have hgate : withProb 1 (draws k) = true := by
      simp only [withProb, decide_eq_true_eq]
      exact hd k
    rw [nOpAux, if_pos hgate]
    rcases List.mem_cons.mp hp with rfl | hp'
    · have hq_not : p ∉ ps := (List.nodup_cons.mp hnd).1
      refine ⟨draws (k + 1), ?_⟩
      rw [nOpAux_notmem size 1 draws ps _ _ p hq_not]
      obtain ⟨hylen, hrowlen⟩ := getCell_of_shape values s p hsv hy
      exact getCell_setCell_self values p _ hylen (by rw [hrowlen]; exact hx)
    · have hqp : p ≠ q := by
        intro h
        exact (List.nodup_cons.mp hnd).1 (h ▸ hp')
      obtain ⟨c, hc⟩ := ih
        (setCell values q (neighbouringVal size (draws (k + 1)) (getCell values q)))
        (k + 2) p hp' (List.nodup_cons.mp hnd).2 (shapeOk_setCell s values q _ hsv) hx hy
      refine ⟨c, ?_⟩
      rw [hc, getCell_setCell_ne _ _ _ _ hqp]

/-- An in-range, unclamped value always changes under `_neighbouring_val`. -/
theorem neighbouringVal_ne (size : Nat) (c : ℚ) (v : Int)
    (hceil : v ≠ (size : Int)) (hfloor : v ≠ 1) :
    neighbouringVal size c v ≠ v := by
  unfold neighbouringVal
  by_cases h : withProb (mkRat 1 2) c = true
  · rw [if_pos h, if_pos hceil]
    omega
  · rw [if_neg h, if_pos hfloor]
    omega

/-- `fill_board` never touches the size, the snapshot or the blank index. -/
theorem fillBoard_fields (b : Board) (vs : List (List Int)) :
    (b.fillBoard vs).2.size = b.size ∧ (b.fillBoard vs).2.boardInit = b.boardInit
    ∧ (b.fillBoard vs).2.unfilled = b.unfilled := by
  unfold Board.fillBoard
  split_ifs <;> exact ⟨rfl, rfl, rfl⟩

/-- The grid after `fill_board` is either the proposed values (success) or
the old grid (failure). -/
theorem fillBoard_board_cases (b : Board) (vs : List (List Int)) :
    (b.fillBoard vs).2.board = vs ∨ (b.fillBoard vs).2.board = b.board := by
  unfold Board.fillBoard
  by_cases h1 : ¬ Board.shapeOk b.size vs = true
  · rw [if_pos h1]
    exact Or.inr rfl
  · rw [if_neg h1]
    by_cases h2 : (b.boardInit.zip vs).any (fun rp => Board.initConflict rp.1 rp.2) = true
    · rw [if_pos h2]
      exact Or.inr rfl
    · rw [if_neg h2]
      exact Or.inl rfl

/-- Refilling a board with its own values leaves it unchanged whether or not
the scan succeeds. -/
theorem fillBoard_self (b : Board) : (b.fillBoard b.board).2 = b := by
  unfold Board.fillBoard
  split_ifs <;> rfl

set_option maxHeartbeats 1000000 in
/-- `fill_board` succeeds whenever the proposed values agree with the
snapshot on every initially non-zero cell. -/
theorem fillBoard_succeeds (b : Board) (vs : List (List Int))
    (hsi : Board.shapeOk b.size b.boardInit = true)
    (hsv : Board.shapeOk b.size vs = true)
    (hsame : ∀ p : Pos, p.x < b.size → p.y < b.size → getCell b.boardInit p ≠ 0 →
      getCell vs p = getCell b.boardInit p) :
    b.fillBoard vs = (true, { b with board := vs }) := by
  have hsi' := hsi
  have hsv' := hsv
  simp only [Board.shapeOk, Bool.and_eq_true, decide_eq_true_eq, List.all_eq_true]
    at hsi' hsv'
  have hnoc : ¬ ((b.boardInit.zip vs).any (fun rp => Board.initConflict rp.1 rp.2) = true) := by
    intro hany
    rw [List.any_eq_true] at hany
    obtain ⟨rp, hrp, hconf⟩ := hany
    obtain ⟨iy, hiylen, hrpe⟩ := List.mem_iff_getElem.mp hrp
    rw [List.getElem_zip] at hrpe
    rw [← hrpe] at hconf
    rw [List.length_zip, Nat.lt_min] at hiylen
    simp only [Board.initConflict, List.any_eq_true] at hconf
    obtain ⟨tp, htp, hc⟩ := hconf
    obtain ⟨jx, hjxlen, htpe⟩ := List.mem_iff_getElem.mp htp
    rw [List.getElem_zip] at htpe
    rw [← htpe] at hc
    rw [List.length_zip, Nat.lt_min] at hjxlen
    simp only [Bool.and_eq_true, decide_eq_true_eq] at hc
    have hiy_size : iy < b.size := by
      rw [← hsi'.1]
      exact hiylen.1
    have hjx_size : jx < b.size := by
      have hrl : b.boardInit[iy].length = b.size :=
        hsi'.2 _ (List.getElem_mem hiylen.1)
      rw [← hrl]
      exact hjxlen.1
    have e1 : getCell b.boardInit ⟨jx, iy⟩ = b.boardInit[iy][jx] := by
      unfold getCell
      rw [List.getD_eq_getElem _ _ hiylen.1]
      exact List.getD_eq_getElem _ _ hjxlen.1
    have e2 : getCell vs ⟨jx, iy⟩ = vs[iy][jx] := by
      unfold getCell
      rw [List.getD_eq_getElem _ _ hiylen.2]
      exact List.getD_eq_getElem _ _ hjxlen.2
    have hvs_eq := hsame ⟨jx, iy⟩ hjx_size hiy_size (by rw [e1]; exact hc.1)
    rw [e1, e2] at hvs_eq
    exact hc.2 hvs_eq.symm
  unfold Board.fillBoard
  rw [if_neg (by simp [hsv]), if_neg hnoc]

/-- C8 (amended): with `n = 0` the n-operator is the identity for every draw
sequence whose gate draws are strictly positive (a gate draw of exactly `0`
still fires, because the source tests `draw ≤ n`); with `n = 1` every
modifiable cell receives a `±1` perturbation of its old value, which changes
the cell except when clamped at the ceiling (`value = size` on the increment
branch) or at the floor (`value = 1` on the decrement branch). -/
theorem c8_n_operator_boundaries :
    (∀ (b : Board) (draws : Nat → ℚ) (k : Nat), (∀ j, 0 < draws j) →
        (neighbouringOperator b 0 draws k).1 = b)
    ∧ (∀ (b : Board) (draws : Nat → ℚ) (k : Nat),
        (∀ j, draws j ≤ 1) →
        Board.shapeOk b.size b.board = true → Board.shapeOk b.size b.boardInit = true →
        boardInvariant b → b.unfilledPositions.Nodup →
        (∀ q ∈ b.unfilledPositions, getCell b.boardInit q = 0 ∧ q.x < b.size ∧ q.y < b.size) →
        ∀ p ∈ b.unfilledPositions,
          ∃ c : ℚ,
            getCell ((neighbouringOperator b 1 draws k).1).board p
              = neighbouringVal b.size c (getCell b.board p)
            ∧ (getCell b.board p ≠ (b.size : Int) → getCell b.board p ≠ 1 →
                getCell ((neighbouringOperator b 1 draws k).1).board p
                  ≠ getCell b.board p)) := by
  constructor
  · intro b draws k hd
    show (b.fillBoard (nOpAux b.size 0 draws b.unfilledPositions b.board k).1).2 = b
    rw [nOpAux_id b.size draws hd]
    exact fillBoard_self b
  · intro b draws k hd hsb hsi hinv hnd hq p hp
    have hsv' : Board.shapeOk b.size
        ((nOpAux b.size 1 draws b.unfilledPositions b.board k).1) = true :=
      nOpAux_shape b.size 1 draws b.size b.unfilledPositions b.board k hsb
    have hsame : ∀ q : Pos, q.x < b.size → q.y < b.size → getCell b.boardInit q ≠ 0 →
        getCell ((nOpAux b.size 1 draws b.unfilledPositions b.board k).1) q
          = getCell b.boardInit q := by
      intro q hqx hqy hq0
      have hqnot : q ∉ b.unfilledPositions := fun hmem => hq0 (hq q hmem).1
      rw [nOpAux_notmem b.size 1 draws b.unfilledPositions b.board k q hqnot]
      exact hinv q hq0
    have hfb := fillBoard_succeeds b
      ((nOpAux b.size 1 draws b.unfilledPositions b.board k).1) hsi hsv' hsame
    have hboard : ((neighbouringOperator b 1 draws k).1).board
        = (nOpAux b.size 1 draws b.unfilledPositions b.board k).1 := by
      show (b.fillBoard (nOpAux b.size 1 draws b.unfilledPositions b.board k).1).2.board = _
      rw [hfb]
    obtain ⟨c, hc⟩ := nOpAux_one_mem b.size draws hd b.size b.unfilledPositions b.board k p
      hp hnd hsb (hq p hp).2.1 (hq p hp).2.2
    refine ⟨c, by rw [hboard]; exact hc, ?_⟩
    intro hne1 hne2
    rw [hboard, hc]
    exact neighbouringVal_ne b.size c _ hne1 hne2

/-- A board invariant can be established by checking only the finitely many
in-range positions. -/
theorem boardInvariant_of_range (b : Board)
    (hsi : Board.shapeOk b.size b.boardInit = true)
    (h : ∀ p ∈ (List.range b.size).flatMap
          (fun y => (List.range b.size).map (fun x => Pos.mk x y)),
        getCell b.boardInit p ≠ 0 → getCell b.board p = getCell b.boardInit p) :
    boardInvariant b := by
  intro p h0
  by_cases hin : p.x < b.size ∧ p.y < b.size
  · refine h p ?_ h0
    rw [List.mem_flatMap]
    refine ⟨p.y, List.mem_range.mpr hin.2, ?_⟩
    rw [List.mem_map]
    exact ⟨p.x, List.mem_range.mpr hin.1, rfl⟩
  · exact absurd (getCell_default_of_oob b.boardInit b.size p hsi hin) h0

/-- Witness for the amended C8: the identity half at all-ones draws, and the
perturbation half at the cell `(0, 0)` of the mid-value board. -/
theorem c8_witness :
    (neighbouringOperator bOpMid4 0 (fun _ => 1) 0).1 = bOpMid4
    ∧ ∃ c : ℚ,
        getCell ((neighbouringOperator bOpMid4 1 (fun _ => 0) 0).1).board ⟨0, 0⟩
          = neighbouringVal bOpMid4.size c (getCell bOpMid4.board ⟨0, 0⟩)
        ∧ (getCell bOpMid4.board ⟨0, 0⟩ ≠ (bOpMid4.size : Int) →
            getCell bOpMid4.board ⟨0, 0⟩ ≠ 1 →
            getCell ((neighbouringOperator bOpMid4 1 (fun _ => 0) 0).1).board ⟨0, 0⟩
              ≠ getCell bOpMid4.board ⟨0, 0⟩) :=
  ⟨c8_n_operator_boundaries.1 bOpMid4 (fun _ => 1) 0 (fun _ => by norm_num),
   c8_n_operator_boundaries.2 bOpMid4 (fun _ => 0) 0 (fun _ => by norm_num) (by decide)
     (by decide) (boardInvariant_of_range bOpMid4 (by decide) (by decide)) (by decide)
     (by decide) ⟨0, 0⟩ (by decide)⟩

/-!  The blank-position index and operator locality (C10). -/

theorem countUnfilledAux_fst : ∀ (l : List Int) (i : Nat),
    (countUnfilledAux i l).1 = l.count 0 := by
  intro l
  induction l with
  | nil => intro i; rfl
  | cons t rest ih =>
    intro i
    simp only [countUnfilledAux, List.count_cons]
    by_cases ht : t = 0
    · rw [if_pos ht]
      simp [ht, ih (i + 1)]
    · rw [if_neg ht]
      simp [ht, ih (i + 1)]

theorem countUnfilledAux_mem : ∀ (l : List Int) (i j : Nat),
    j ∈ (countUnfilledAux i l).2 ↔ i ≤ j ∧ l[j - i]? = some 0 := by
  intro l
  induction l with
  | nil =>
    intro i j
    simp [countUnfilledAux]
  | cons t rest ih =>
    intro i j
    simp only [countUnfilledAux]
    by_cases ht : t = 0
    · rw [if_pos ht]
      rw [List.mem_cons, ih (i + 1) j]
      constructor
      · rintro (rfl | ⟨hij, hrest⟩)
        · refine ⟨le_refl _, ?_⟩
          rw [Nat.sub_self, List.getElem?_cons_zero, ht]
        · refine ⟨by omega, ?_⟩
          have he : j - i = (j - (i + 1)) + 1 := by omega
          rw [he, List.getElem?_cons_succ]
          exact hrest
      · rintro ⟨hij, hcell⟩
        by_cases hji : j = i
        · exact Or.inl hji
        · right
          have he : j - i = (j - (i + 1)) + 1 := by omega
          rw [he, List.getElem?_cons_succ] at hcell
          exact ⟨by omega, hcell⟩
    · rw [if_neg ht]
      rw [ih (i + 1) j]
      constructor
      · rintro ⟨hij, hrest⟩
        have he : j - i = (j - (i + 1)) + 1 := by omega
        rw [he, List.getElem?_cons_succ]
        exact ⟨by omega, hrest⟩
      · rintro ⟨hij, hcell⟩
        by_cases hji : j = i
        · exfalso
          rw [hji, Nat.sub_self, List.getElem?_cons_zero] at hcell
          exact ht (Option.some.inj hcell)
        · have he : j - i = (j - (i + 1)) + 1 := by omega
          rw [he, List.getElem?_cons_succ] at hcell
          exact ⟨by omega, hcell⟩

theorem unfilledOfAux_mem : ∀ (init : List (List Int)) (i r : Nat) (idxs : List Nat),
    (r, idxs) ∈ unfilledOfAux i init ↔
      i ≤ r ∧ ∃ row, init[r - i]? = some row ∧ 2 ≤ (countUnfilled row).1
        ∧ idxs = (countUnfilled row).2 := by
  intro init
  induction init with
  | nil =>
    intro i r idxs
    simp [unfilledOfAux]
  | cons line rest ih =>
    intro i r idxs
    simp only [unfilledOfAux]
    by_cases hl : 2 ≤ (countUnfilled line).1
    · rw [if_pos hl]
      rw [List.mem_cons, ih (i + 1) r idxs]
      constructor
      · rintro (heq | ⟨hir, row, hrow, hcnt, hidxs⟩)
        · obtain ⟨h1, h2⟩ := Prod.mk.injEq .. ▸ heq
          refine ⟨le_of_eq h1.symm, line, ?_, hl, h2⟩
          rw [h1, Nat.sub_self, List.getElem?_cons_zero]
        · refine ⟨by omega, row, ?_, hcnt, hidxs⟩
          have he : r - i = (r - (i + 1)) + 1 := by omega
          rw [he, List.getElem?_cons_succ]
          exact hrow
      · rintro ⟨hir, row, hrow, hcnt, hidxs⟩
        by_cases hri : r = i
        · left
          rw [hri, Nat.sub_self, List.getElem?_cons_zero] at hrow
          rw [hri, hidxs, Option.some.inj hrow]
        · right
          have he : r - i = (r - (i + 1)) + 1 := by omega
          rw [he, List.getElem?_cons_succ] at hrow
          exact ⟨by omega, row, hrow, hcnt, hidxs⟩
    · rw [if_neg hl]
      rw [ih (i + 1) r idxs]
      constructor
      · rintro ⟨hir, row, hrow, hcnt, hidxs⟩
        have he : r - i = (r - (i + 1)) + 1 := by omega
        rw [he, List.getElem?_cons_succ]
        exact ⟨by omega, row, hrow, hcnt, hidxs⟩
      · rintro ⟨hir, row, hrow, hcnt, hidxs⟩
        by_cases hri : r = i
        · exfalso
          rw [hri, Nat.sub_self, List.getElem?_cons_zero] at hrow
          rw [← Option.some.inj hrow] at hcnt
          exact hl hcnt
        · have he : r - i = (r - (i + 1)) + 1 := by omega
          rw [he, List.getElem?_cons_succ] at hrow
          exact ⟨by omega, row, hrow, hcnt, hidxs⟩

/-- Cells outside the processed position list are untouched by the value pass
of the β-operator. -/
theorem betaOpAux_notmem (bProb : ℚ) (draws : Nat → ℚ) (ints : Nat → Int) :
    ∀ (ps : List Pos) (values : List (List Int)) (k : Nat) (p : Pos), p ∉ ps →
      getCell ((betaOpAux bProb draws ints ps values k).1) p = getCell values p := by
  intro ps
  induction ps with
  | nil => intro values k p _; rfl
  | cons q ps ih =>
    intro values k p hp
    have hpq : p ≠ q := fun h => hp (h ▸ List.mem_cons_self _ _)
    have hp' : p ∉ ps := fun h => hp (List.mem_cons_of_mem _ h)
    rw [betaOpAux]
    by_cases hg : withProb bProb (draws k) = true
    · rw [if_pos hg, ih _ _ _ hp']
      exact getCell_setCell_ne _ _ _ _ hpq
    · rw [if_neg hg]
      exact ih _ _ _ hp'

/-- The n-operator never modifies a cell outside `unfilled_positions`. -/
theorem neighbouringOperator_cell (b : Board) (nProb : ℚ) (draws : Nat → ℚ) (k : Nat)
    (p : Pos) (hp : p ∉ b.unfilledPositions) :
    getCell ((neighbouringOperator b nProb draws k).1).board p = getCell b.board p := by
  show getCell
    ((b.fillBoard (nOpAux b.size nProb draws b.unfilledPositions b.board k).1).2).board p = _
  rcases fillBoard_board_cases b ((nOpAux b.size nProb draws b.unfilledPositions b.board k).1)
    with h | h
  · rw [h, nOpAux_notmem b.size nProb draws b.unfilledPositions b.board k p hp]
  · rw [h]

/-- The β-operator never modifies a cell outside `unfilled_positions`. -/
theorem betaOperator_cell (b : Board) (bProb : ℚ) (draws : Nat → ℚ) (ints : Nat → Int)
    (k : Nat) (p : Pos) (hp : p ∉ b.unfilledPositions) :
    getCell ((betaOperator b bProb draws ints k).1).board p = getCell b.board p := by
  show getCell
    ((b.fillBoard (betaOpAux bProb draws ints b.unfilledPositions b.board k).1).2).board p = _
  rcases fillBoard_board_cases b ((betaOpAux bProb draws ints b.unfilledPositions b.board k).1)
    with h | h
  · rw [h, betaOpAux_notmem bProb draws ints b.unfilledPositions b.board k p hp]
  · rw [h]

/-- The operators leave the size, the snapshot and the blank index alone. -/
theorem neighbouringOperator_fields (b : Board) (nProb : ℚ) (draws : Nat → ℚ) (k : Nat) :
    ((neighbouringOperator b nProb draws k).1).size = b.size
    ∧ ((neighbouringOperator b nProb draws k).1).boardInit = b.boardInit
    ∧ ((neighbouringOperator b nProb draws k).1).unfilled = b.unfilled :=
  fillBoard_fields b _

theorem betaOperator_fields (b : Board) (bProb : ℚ) (draws : Nat → ℚ) (ints : Nat → Int)
    (k : Nat) :
    ((betaOperator b bProb draws ints k).1).size = b.size
    ∧ ((betaOperator b bProb draws ints k).1).boardInit = b.boardInit
    ∧ ((betaOperator b bProb draws ints k).1).unfilled = b.unfilled :=
  fillBoard_fields b _

/-- `unfilled_positions` reads only the `_unfilled` dictionary. -/
theorem unfilledPositions_congr (b b' : Board) (h : b'.unfilled = b.unfilled) :
    b'.unfilledPositions = b.unfilledPositions := by
  unfold Board.unfilledPositions
  rw [h]

/-- One full β-hill-climbing step keeps the blank index and every cell
outside `unfilled_positions`. -/
theorem stepPB_cell (nProb bProb : ℚ) (draws : Nat → ℚ) (ints : Nat → Int)
    (b : Board) (k : Nat) :
    ((stepPB nProb bProb draws ints b k).1).unfilled = b.unfilled
    ∧ ∀ p : Pos, p ∉ b.unfilledPositions →
        getCell ((stepPB nProb bProb draws ints b k).1).board p = getCell b.board p := by
  have hu1 := (neighbouringOperator_fields b nProb draws k).2.2
  have hu2 := (betaOperator_fields ((neighbouringOperator b nProb draws k).1) bProb draws ints
    ((neighbouringOperator b nProb draws k).2)).2.2
  constructor
  · show ((betaOperator (neighbouringOperator b nProb draws k).1 bProb draws ints
      (neighbouringOperator b nProb draws k).2).1).unfilled = b.unfilled
    rw [hu2, hu1]
  · intro p hp
    have hp' : p ∉ ((neighbouringOperator b nProb draws k).1).unfilledPositions := by
      rw [unfilledPositions_congr b _ hu1]
      exact hp
    show getCell ((betaOperator (neighbouringOperator b nProb draws k).1 bProb draws ints
      (neighbouringOperator b nProb draws k).2).1).board p = _
    rw [betaOperator_cell _ bProb draws ints _ p hp',
      neighbouringOperator_cell b nProb draws k p hp]

/-- Through the whole climb loop, a cell outside `unfilled_positions` keeps
its value. -/
theorem climbAux_cell (step : Board → Nat → Board × Nat) (eval : Board → Int)
    (maxIter : Nat)
    (hcell : ∀ (b : Board) (k : Nat), ((step b k).1).unfilled = b.unfilled
      ∧ ∀ p : Pos, p ∉ b.unfilledPositions →
          getCell ((step b k).1).board p = getCell b.board p) :
    ∀ (fuel i : Nat) (b : Board) (smin : Int) (k : Nat) (p : Pos),
      p ∉ b.unfilledPositions →
      getCell ((climbAux step eval maxIter fuel i b smin k).2).board p
        = getCell b.board p := by
  intro fuel
  induction fuel with
  | zero => intro i b smin k p _; rfl
  | succ fuel ih =>
    intro i b smin k p hp
    simp only [climbAux]
    by_cases hacc : eval (step b k).1 ≤ smin
    · by_cases hzero : eval (step b k).1 = 0
      · rw [if_pos hacc, if_pos hzero]
        exact (hcell b k).2 p hp
      · rw [if_pos hacc, if_neg hzero]
        have hp' : p ∉ ((step b k).1).unfilledPositions := by
          rw [unfilledPositions_congr b _ (hcell b k).1]
          exact hp
        rw [ih _ _ _ _ p hp', (hcell b k).2 p hp]
    · rw [if_neg hacc]
      exact ih _ _ _ _ p hp

/-- C10: `unfilled_positions()` of a loaded grid contains exactly the
initially-blank cells lying in rows with at least two initial blanks; the
cell-level n-operator and β-operator never modify any other cell; and through
an entire `PaperBetaHC` climb every such cell keeps its fill value. -/
theorem c10_unfilled_positions_locality :
    (∀ (size : Nat) (init : List (List Int)) (p : Pos),
        p ∈ (loadedBoard size init).unfilledPositions ↔
          ∃ row, init[p.y]? = some row ∧ 2 ≤ row.count 0 ∧ row[p.x]? = some 0)
    ∧ (∀ (b : Board) (nProb : ℚ) (draws : Nat → ℚ) (k : Nat) (p : Pos),
        p ∉ b.unfilledPositions →
        getCell ((neighbouringOperator b nProb draws k).1).board p = getCell b.board p)
    ∧ (∀ (b : Board) (bProb : ℚ) (draws : Nat → ℚ) (ints : Nat → Int) (k : Nat) (p : Pos),
        p ∉ b.unfilledPositions →
        getCell ((betaOperator b bProb draws ints k).1).board p = getCell b.board p)
    ∧ (∀ (nProb bProb : ℚ) (draws : Nat → ℚ) (ints : Nat → Int) (maxIter : Nat)
        (b : Board) (k : Nat) (p : Pos),
        p ∉ b.unfilledPositions →
        getCell ((climbPB nProb bProb draws ints maxIter b k).2).board p
          = getCell b.board p) := by
  refine ⟨?_, neighbouringOperator_cell, betaOperator_cell, ?_⟩
  · intro size init p
    constructor
    · intro h
      obtain ⟨⟨r, idxs⟩, hmem, hpmem⟩ := List.mem_flatMap.mp h
      obtain ⟨idx, hidx, hpe⟩ := List.mem_map.mp hpmem
      obtain ⟨-, row, hrow, hcnt, hidxs⟩ := (unfilledOfAux_mem init 0 r idxs).mp hmem
      rw [Nat.sub_zero] at hrow
      subst hpe
      refine ⟨row, hrow, ?_, ?_⟩
      · rw [← countUnfilledAux_fst row 0]
        exact hcnt
      · rw [hidxs] at hidx
        obtain ⟨-, hcell⟩ := (countUnfilledAux_mem row 0 idx).mp hidx
        rw [Nat.sub_zero] at hcell
        exact hcell
    · rintro ⟨row, hrow, hcnt, hcell⟩
      apply List.mem_flatMap.mpr
      refine ⟨(p.y, (countUnfilled row).2), ?_, ?_⟩
      · apply (unfilledOfAux_mem init 0 p.y _).mpr
        refine ⟨Nat.zero_le _, row, ?_, ?_, rfl⟩
        · rw [Nat.sub_zero]
          exact hrow
        · show 2 ≤ (countUnfilledAux 0 row).1
          rw [countUnfilledAux_fst row 0]
          exact hcnt
      · apply List.mem_map.mpr
        refine ⟨p.x, ?_, rfl⟩
        apply (countUnfilledAux_mem row 0 p.x).mpr
        refine ⟨Nat.zero_le _, ?_⟩
        rw [Nat.sub_zero]
        exact hcell
  · intro nProb bProb draws ints maxIter b k p hp
    exact climbAux_cell (stepPB nProb bProb draws ints) objective maxIter
      (fun b' k' => stepPB_cell nProb bProb draws ints b' k') maxIter 0 b (objective b) k p hp

/-- Witness for C10: on the loaded two-blank puzzle the index holds exactly
the two blanks of row 0, the single blank of a one-blank row is excluded, and
a one-iteration climb leaves the out-of-index cell `(0, 0)` unchanged. -/
theorem c10_witness :
    ((⟨0, 0⟩ : Pos) ∈ bTwoBlank4.unfilledPositions ↔
      ∃ row, mTwoBlank4[(0 : Nat)]? = some row ∧ 2 ≤ row.count 0
        ∧ row[(0 : Nat)]? = some 0)
    ∧ getCell ((climbPB 1 1 (fun _ => 0) (fun _ => 2) 1 bTwoBlank4 0).2).board ⟨0, 0⟩
        = getCell bTwoBlank4.board ⟨0, 0⟩ :=
  ⟨c10_unfilled_positions_locality.1 4 mTwoBlank4 ⟨0, 0⟩,
   c10_unfilled_positions_locality.2.2.2 1 1 (fun _ => 0) (fun _ => 2) 1 bTwoBlank4 0 ⟨0, 0⟩
     (by decide)⟩

end Sudoku
